import Mathlib

/-!
Shallow embedding of the concurrency-control and chunked-I/O layer of the
s3transfer repository (`s3transfer/utils.py`), together with theorems
settling the specification claims about it.

Modelled components:
* `Sem` — `SlidingWindowSemaphore` (count, `_tag_sequences`, `_lowest_sequence`,
  `_pending_release`); Python dicts become association lists over `Nat` tags.
* `FileObj` — the underlying seekable byte source (a Python binary file object).
* `ReadFileChunk` — the bounded, callback-instrumented chunk reader.
* `DeferredOpenFile` — the lazy file handle.
* `invokeProgressCallbacks` — the shared progress-callback helper.

Callbacks are modelled by identifiers (`Nat`); an operation returns the list of
invocations `(callback, delta)` it performed, in order.
-/

namespace S3T

/-! ### Association lists (Python dict over Nat keys) -/

def assocLookup {α : Type} : List (Nat × α) → Nat → Option α
  | [], _ => none
  | (k, v) :: rest, t => if k = t then some v else assocLookup rest t

def assocSet {α : Type} : List (Nat × α) → Nat → α → List (Nat × α)
  | [], t, v => [(t, v)]
  | (k, w) :: rest, t, v =>
      if k = t then (t, v) :: rest else (k, w) :: assocSet rest t v

theorem assocLookup_assocSet {α : Type} (l : List (Nat × α)) (t u : Nat) (v : α) :
    assocLookup (assocSet l t v) u = if t = u then some v else assocLookup l u := by
  induction l with
  | nil =>
    by_cases h : t = u <;> simp [assocSet, assocLookup, h]
  | cons p rest ih =>
    obtain ⟨k, w⟩ := p
    by_cases hk : k = t
    · subst hk
      by_cases h : k = u <;> simp [assocSet, assocLookup, h]
    · by_cases h : k = u
      · subst h
        have : ¬ t = k := fun hh => hk hh.symm
        simp [assocSet, assocLookup, hk, this]
      · simp [assocSet, assocLookup, hk, h, ih]

theorem assocLookup_assocSet_self {α : Type} (l : List (Nat × α)) (t : Nat) (v : α) :
    assocLookup (assocSet l t v) t = some v := by
  simp [assocLookup_assocSet]

theorem assocLookup_assocSet_ne {α : Type} (l : List (Nat × α)) (t u : Nat) (v : α)
    (h : t ≠ u) : assocLookup (assocSet l t v) u = assocLookup l u := by
  simp [assocLookup_assocSet, h]

/-! ### SlidingWindowSemaphore -/

inductive SemError where
  | noResourcesAvailable
  | unknownTag
  | invalidSequence
deriving DecidableEq, Repr

deriving instance DecidableEq for Except

structure Sem where
  count : Nat
  tagSequences : List (Nat × Nat)
  lowestSequence : List (Nat × Nat)
  pendingRelease : List (Nat × List Nat)
deriving DecidableEq, Repr

def initSem (count : Nat) : Sem :=
  { count := count, tagSequences := [], lowestSequence := [], pendingRelease := [] }

def Sem.currentCount (s : Sem) : Nat := s.count

/-- Next sequence number for a tag; `_tag_sequences` is a `defaultdict(int)`,
so an absent tag reads as 0. -/
def nextOf (s : Sem) (t : Nat) : Nat := (assocLookup s.tagSequences t).getD 0

/-- Lowest unreleased sequence number for a tag.  In the source
`_lowest_sequence` is a plain dict only read for tags already acquired, where
the key is always present; the default 0 is never observed on such states. -/
def lowOf (s : Sem) (t : Nat) : Nat := (assocLookup s.lowestSequence t).getD 0

/-- Pending out-of-order releases for a tag, kept sorted in descending order
(the code appends then `sort(reverse=True)`); the minimum is the last element.
`.get(tag, [])` semantics: an absent tag reads as the empty list. -/
def pendingOf (s : Sem) (t : Nat) : List Nat := (assocLookup s.pendingRelease t).getD []

/-- Source `SlidingWindowSemaphore.acquire` (utils.py:428-448), `blocking=False`.
With `blocking=True` the `count == 0` branch waits on the condition variable
instead of raising; the success path (`count > 0`) is identical in both modes.
Returns the result together with the state after the call. -/
def Sem.acquire (s : Sem) (tag : Nat) : Except SemError Nat × Sem :=
  if s.count = 0 then
    (.error .noResourcesAvailable, s)
  else
    -- sequence_number = self._tag_sequences[tag]  (defaultdict read)
    let sequenceNumber := nextOf s tag
    -- if sequence_number == 0: self._lowest_sequence[tag] = sequence_number
    let lows := if sequenceNumber = 0
      then assocSet s.lowestSequence tag sequenceNumber
      else s.lowestSequence
    (.ok sequenceNumber,
      { s with
        tagSequences := assocSet s.tagSequences tag (sequenceNumber + 1),
        lowestSequence := lows,
        count := s.count - 1 })

/-- The drain loop of `release` on the reversed (ascending) pending list:
`while queued: if lowest == queued[-1]: pop; lowest += 1 else: break`.
Returns the final lowest value and the remaining (still ascending) list. -/
def drainAsc : Nat → List Nat → Nat × List Nat
  | low, [] => (low, [])
  | low, x :: rest => if x = low then drainAsc (low + 1) rest else (low, x :: rest)

/-- Insertion sort, descending (the code's `list.sort(reverse=True)` on ints). -/
def sortDesc (l : List Nat) : List Nat :=
  List.insertionSort (fun a b => b ≤ a) l

/-- Source `SlidingWindowSemaphore.release` (utils.py:450-481).
Returns the result together with the state after the call; on an exception the
state is whatever mutations preceded the raise (in the source: none). -/
def Sem.release (s : Sem) (tag : Nat) (sequenceNumber : Nat) :
    Except SemError Unit × Sem :=
  match assocLookup s.tagSequences tag with
  | none => (.error .unknownTag, s)
  | some maxSequence =>
    let lowest := lowOf s tag
    if lowest = sequenceNumber then
      -- immediately process and free resources, then drain the pending queue
      let s1 := { s with
        lowestSequence := assocSet s.lowestSequence tag (lowest + 1),
        count := s.count + 1 }
      match assocLookup s1.pendingRelease tag with
      | none => (.ok (), s1)  -- queued = [], loop body never runs
      | some queued =>
        let res := drainAsc (lowest + 1) queued.reverse
        (.ok (), { s1 with
          lowestSequence := assocSet s1.lowestSequence tag res.1,
          pendingRelease := assocSet s1.pendingRelease tag res.2.reverse,
          count := s1.count + (res.1 - (lowest + 1)) })
    else if lowest < sequenceNumber ∧ sequenceNumber < maxSequence then
      let q := pendingOf s tag
      (.ok (), { s with
        pendingRelease := assocSet s.pendingRelease tag (sortDesc (q ++ [sequenceNumber])) })
    else
      (.error .invalidSequence, s)

/-! ### Operation traces over the semaphore -/

inductive GateOp where
  | acq (tag : Nat)
  | rel (tag n : Nat)
deriving DecidableEq, Repr

/-- Run a list of gate operations; `none` if any operation raises.  The log
collects `(tag, sequenceNumber)` for each successful acquire, in order. -/
def runGate : Sem → List GateOp → Option (Sem × List (Nat × Nat))
  | s, [] => some (s, [])
  | s, .acq t :: rest =>
    match s.acquire t with
    | (.ok n, s') => (runGate s' rest).map fun p => (p.1, (t, n) :: p.2)
    | (.error _, _) => none
  | s, .rel t n :: rest =>
    match s.release t n with
    | (.ok _, s') => runGate s' rest
    | (.error _, _) => none

/-! ### Progress callbacks and the file-chunk reader -/

/-- Source `invoke_progress_callbacks` (utils.py:112-125).  Callbacks are identified
by `Nat`; the returned list records, in order, each invocation
`(callback, bytes_transferred)`.  `if bytes_transferred:` — an int is truthy
iff non-zero, so exact-zero deltas invoke nothing and negative deltas do fire. -/
def invokeProgressCallbacks (callbacks : List Nat) (bytesTransferred : Int) :
    List (Nat × Int) :=
  if bytesTransferred = 0 then []
  else callbacks.map fun c => (c, bytesTransferred)

/-- A Python binary file object: the file's bytes and the current position.
Positions are `Int` as Python ints; the states our theorems traverse keep
`0 ≤ pos` (Python raises `OSError` on a negative absolute seek). -/
structure FileObj where
  data : List Nat
  pos : Int
deriving DecidableEq, Repr

/-- Source `file.read(amount)`: `none` or a negative amount reads to EOF, otherwise
up to `amount` bytes from the current position; the position advances by the
number of bytes actually returned. -/
def FileObj.read (f : FileObj) (amount : Option Int) : List Nat × FileObj :=
  let remaining : Int := (f.data.length : Int) - f.pos
  let numRead : Nat :=
    match amount with
    | none => remaining.toNat
    | some a => if a < 0 then remaining.toNat else (min a remaining).toNat
  ((f.data.drop f.pos.toNat).take numRead, { f with pos := f.pos + numRead })

def FileObj.seek (f : FileObj) (p : Int) : FileObj := { f with pos := p }

def FileObj.tell (f : FileObj) : Int := f.pos

/-- Source `ReadFileChunk` (utils.py:242-371).  `callbacks` is the normalized list
(the constructor replaces `None` by `[]`, so the `_callbacks is not None`
guards in `read`/`seek` are always true after construction). -/
structure ReadFileChunk where
  fileobj : FileObj
  startByte : Int
  size : Int
  amountRead : Int
  callbacks : List Nat
  callbacksEnabled : Bool
deriving DecidableEq, Repr

/-- Source `ReadFileChunk._calculate_file_size` (utils.py:315-318). -/
def calculateFileSize (requestedSize startByte actualFileSize : Int) : Int :=
  min (actualFileSize - startByte) requestedSize

/-- Source `ReadFileChunk.__init__` (utils.py:243-280): captures `fileobj.tell()` as
the window start and computes the bounded size. -/
def ReadFileChunk.mk' (fileobj : FileObj) (chunkSize fullFileSize : Int)
    (callbacks : List Nat) (enableCallbacks : Bool) : ReadFileChunk :=
  { fileobj := fileobj
    startByte := fileobj.pos
    size := calculateFileSize chunkSize fileobj.pos fullFileSize
    amountRead := 0
    callbacks := callbacks
    callbacksEnabled := enableCallbacks }

/-- Source `ReadFileChunk.from_filename` (utils.py:282-313): opens the file (position
0), seeks to `startByte`, stats the true file size, and constructs the chunk.
The file on disk is given by its byte contents `data`. -/
def ReadFileChunk.fromFilename (data : List Nat) (startByte chunkSize : Int)
    (callbacks : List Nat) (enableCallbacks : Bool) : ReadFileChunk :=
  ReadFileChunk.mk' ((FileObj.mk data 0).seek startByte) chunkSize
    (data.length : Int) callbacks enableCallbacks

/-- Source `ReadFileChunk.read` (utils.py:320-329).  Returns the bytes read, the
callback invocations performed, and the state after the call. -/
def ReadFileChunk.read (c : ReadFileChunk) (amount : Option Int) :
    List Nat × List (Nat × Int) × ReadFileChunk :=
  let amountToRead : Int :=
    match amount with
    | none => c.size - c.amountRead
    | some a => min (c.size - c.amountRead) a
  let res := c.fileobj.read (some amountToRead)
  let invocations :=
    if c.callbacksEnabled then
      invokeProgressCallbacks c.callbacks (res.1.length : Int)
    else []
  (res.1, invocations,
    { c with fileobj := res.2, amountRead := c.amountRead + res.1.length })

/-- Source `ReadFileChunk.seek` (utils.py:337-343): seeks the underlying object to
`startByte + offset`, fires callbacks with `offset - amountRead` (the helper
suppresses exact zeros), then sets `amountRead := offset`. -/
def ReadFileChunk.seek (c : ReadFileChunk) (offset : Int) :
    List (Nat × Int) × ReadFileChunk :=
  let f' := c.fileobj.seek (c.startByte + offset)
  let invocations :=
    if c.callbacksEnabled then
      invokeProgressCallbacks c.callbacks (offset - c.amountRead)
    else []
  (invocations, { c with fileobj := f', amountRead := offset })

def ReadFileChunk.tell (c : ReadFileChunk) : Int := c.amountRead

/-- Source `ReadFileChunk.__len__` (utils.py:351-357). -/
def ReadFileChunk.length (c : ReadFileChunk) : Int := c.size

/-! ### DeferredOpenFile -/

/-- Source `DeferredOpenFile` (utils.py:190-239).  `content` stands for the bytes the
filename refers to on disk; `fileobj` is absent until the first `read`,
`seek` or scope entry. -/
structure DeferredOpenFile where
  content : List Nat
  fileobj : Option FileObj
  startByte : Int
deriving DecidableEq, Repr

def DeferredOpenFile.mk' (content : List Nat) (startByte : Int) :
    DeferredOpenFile :=
  { content := content, fileobj := none, startByte := startByte }

/-- Source `DeferredOpenFile._open_if_needed` (utils.py:212-215): opens at position 0
and immediately seeks to `startByte`. -/
def DeferredOpenFile.openIfNeeded (d : DeferredOpenFile) : DeferredOpenFile :=
  match d.fileobj with
  | some _ => d
  | none => { d with fileobj := some ((FileObj.mk d.content 0).seek d.startByte) }

def DeferredOpenFile.read (d : DeferredOpenFile) (amount : Option Int) :
    List Nat × DeferredOpenFile :=
  let d' := d.openIfNeeded
  match d'.fileobj with
  | some f =>
    let res := f.read amount
    (res.1, { d' with fileobj := some res.2 })
  | none => ([], d')  -- unreachable: openIfNeeded always yields a handle

/-- Source `DeferredOpenFile.seek` (utils.py:221-223): an absolute seek on the
underlying handle (no `startByte` translation). -/
def DeferredOpenFile.seek (d : DeferredOpenFile) (whereTo : Int) :
    DeferredOpenFile :=
  let d' := d.openIfNeeded
  match d'.fileobj with
  | some f => { d' with fileobj := some (f.seek whereTo) }
  | none => d'

/-- Source `DeferredOpenFile.tell` (utils.py:225-228): `startByte` while unopened,
without opening the file. -/
def DeferredOpenFile.tell (d : DeferredOpenFile) : Int :=
  match d.fileobj with
  | none => d.startByte
  | some f => f.tell

/-! ### Operation traces over the chunk reader and the deferred file -/

inductive ChunkOp where
  | rd (amount : Option Int)
  | sk (offset : Int)
deriving DecidableEq, Repr

def runChunk : ReadFileChunk → List ChunkOp → ReadFileChunk
  | c, [] => c
  | c, .rd a :: rest => runChunk (c.read a).2.2 rest
  | c, .sk w :: rest => runChunk (c.seek w).2 rest

/-- Well-formed chunk operation: read amounts are byte counts and seek offsets
stay inside the window (the spec trusts callers to pass valid offsets). -/
def ChunkOpOK (size : Int) : ChunkOp → Prop
  | .rd none => True
  | .rd (some a) => 0 ≤ a
  | .sk w => 0 ≤ w ∧ w ≤ size

instance (size : Int) (op : ChunkOp) : Decidable (ChunkOpOK size op) := by
  cases op with
  | rd a => cases a <;> simp [ChunkOpOK] <;> infer_instance
  | sk w => simp [ChunkOpOK]; infer_instance

/-- Coupling between a chunk and its underlying source, as established by
construction over a source of the stated total size: the underlying cursor
mirrors `startByte + amountRead` and the window fits inside the source. -/
def ChunkWF (c : ReadFileChunk) : Prop :=
  0 ≤ c.amountRead ∧ c.amountRead ≤ c.size ∧ 0 ≤ c.startByte ∧
  c.fileobj.pos = c.startByte + c.amountRead ∧
  c.startByte + c.size ≤ (c.fileobj.data.length : Int)

inductive DeferredOp where
  | rd (amount : Option Int)
  | sk (whereTo : Int)
  | ent
deriving DecidableEq, Repr

def runDeferred : DeferredOpenFile → List DeferredOp → DeferredOpenFile
  | d, [] => d
  | d, .rd a :: rest => runDeferred (d.read a).2 rest
  | d, .sk w :: rest => runDeferred (d.seek w) rest
  | d, .ent :: rest => runDeferred d.openIfNeeded rest

/-- Seek targets at or past the handle's start byte. -/
def DeferredOpOK (startByte : Int) : DeferredOp → Prop
  | .rd _ => True
  | .sk w => startByte ≤ w
  | .ent => True

instance (startByte : Int) (op : DeferredOp) : Decidable (DeferredOpOK startByte op) := by
  cases op <;> simp [DeferredOpOK] <;> infer_instance

/-! ### Semaphore invariants and trace projections -/

/-- Sum of `next - lowest` over the entries of a tag-sequence table, reading
each tag's lowest from `lows`. -/
def outstandingAux (lows : List (Nat × Nat)) (l : List (Nat × Nat)) : Int :=
  l.foldr (fun p acc => (p.2 : Int) - ((assocLookup lows p.1).getD 0 : Nat) + acc) 0

/-- Sum over all tags of `nextSequence[tag] - lowestUnreleased[tag]` (tags
never acquired contribute zero). -/
def outstanding (s : Sem) : Int := outstandingAux s.lowestSequence s.tagSequences

/-- Structural well-formedness of a semaphore state, preserved from
`initSem` by every successful call: distinct table keys, positive issued
counters, per-tag pending queues sorted descending, and no leftover state for
tags never acquired. -/
def wfSem (s : Sem) : Prop :=
  (s.tagSequences.map Prod.fst).Nodup ∧
  (∀ p ∈ s.tagSequences, 1 ≤ p.2) ∧
  (∀ t, List.Sorted (· ≥ ·) (pendingOf s t)) ∧
  (∀ t, assocLookup s.tagSequences t = none →
    pendingOf s t = [] ∧ assocLookup s.lowestSequence t = none)

/-- Released sequence numbers for one tag in an op list, in order. -/
def relsOf (t : Nat) (ops : List GateOp) : List Nat :=
  ops.filterMap fun op =>
    match op with
    | .rel u n => if u = t then some n else none
    | _ => none

/-- All `(tag, sequenceNumber)` release pairs in an op list, in order. -/
def relPairs (ops : List GateOp) : List (Nat × Nat) :=
  ops.filterMap fun op =>
    match op with
    | .rel u n => some (u, n)
    | _ => none

/-- History invariant tying a state to the per-tag sets of already-released
sequence numbers `R`: below `lowest` everything is released, `lowest` itself
is not, and the pending queue holds exactly the released numbers above
`lowest`, strictly descending. -/
def relInv (s : Sem) (R : Nat → List Nat) : Prop :=
  ∀ t,
    (assocLookup s.tagSequences t = none → R t = []) ∧
    (assocLookup s.tagSequences t ≠ none →
      (∀ k, k < lowOf s t → k ∈ R t) ∧
      lowOf s t ∉ R t ∧
      List.Sorted (· > ·) (pendingOf s t) ∧
      (∀ n, n ∈ pendingOf s t ↔ n ∈ R t ∧ lowOf s t < n))

/-! ### Concrete states used by witnesses and counterexamples -/

/-- State of a capacity-1 gate after `acquire` returned 0 for tag 7 and
`release(7, 0)` succeeded: `lowest = next = 1`, nothing outstanding. -/
def semDrained : Sem := ((((initSem 1).acquire 7).2).release 7 0).2

/-- State of a capacity-4 gate after tag 7 acquired 0, 1, 2, 3 and released
2 then 1 out of order: `lowest = 0`, pending queue `[2, 1]`. -/
def semPending : Sem :=
  (runGate (initSem 4) [.acq 7, .acq 7, .acq 7, .acq 7, .rel 7 2, .rel 7 1]).elim
    (initSem 4) Prod.fst

/-- Chunk over a 4-byte source, whole-file window, one callback (id 7). -/
def chunk4 : ReadFileChunk :=
  ReadFileChunk.fromFilename (List.range 4) 0 4 [7] true

/-- Chunk over a 40-byte source with `startByte = 36`, requested size 100000
(the spec's chunk-window example). -/
def chunkTail : ReadFileChunk :=
  ReadFileChunk.fromFilename (List.range 40) 36 100000 [] true

/-- Chunk over a 40-byte source with `startByte = 36` and window size 4. -/
def chunkSmall : ReadFileChunk :=
  ReadFileChunk.fromFilename (List.range 40) 36 4 [] true

/-- Exhausted chunk: zero-sized window, one callback. -/
def chunkEmpty : ReadFileChunk :=
  ReadFileChunk.fromFilename (List.range 4) 0 0 [7] true

/-- Deferred handle over a 10-byte file with `startByte = 5`. -/
def deferred5 : DeferredOpenFile := DeferredOpenFile.mk' (List.range 10) 5

/-- Interleaved acquires for tags 7 and 9 on a capacity-3 gate. -/
def opsC7 : List GateOp := [.acq 7, .acq 9, .acq 7]

/-- Resulting state of running `opsC7` from `initSem 3`. -/
def semC7 : Sem :=
  { count := 0, tagSequences := [(7, 2), (9, 1)],
    lowestSequence := [(7, 0), (9, 0)], pendingRelease := [] }

/-- Acquire log of running `opsC7` from `initSem 3`. -/
def logC7 : List (Nat × Nat) := [(7, 0), (9, 0), (7, 1)]

/-- A fully paired trace: three acquires across two tags, then one release for
each issued number, out of order. -/
def opsC3 : List GateOp :=
  [.acq 7, .acq 9, .acq 7, .rel 7 1, .rel 9 0, .rel 7 0]

/-- Resulting state of running `opsC3` from `initSem 3`. -/
def semC3 : Sem :=
  { count := 3, tagSequences := [(7, 2), (9, 1)],
    lowestSequence := [(7, 2), (9, 1)], pendingRelease := [(7, [])] }

/-! ### Lemmas about the file-chunk reader -/

theorem FileObj.read_some_length (f : FileObj) (a : Int) (h0 : 0 ≤ a)
    (hpos : 0 ≤ f.pos) :
    (f.read (some a)).1.length = (min a ((f.data.length : Int) - f.pos)).toNat := by
  have hna : ¬ a < 0 := not_lt.mpr h0
  simp only [FileObj.read, hna, if_false, List.length_take, List.length_drop]
  omega

theorem FileObj.read_pos_ge (f : FileObj) (amount : Option Int) :
    f.pos ≤ (f.read amount).2.pos := by
  simp only [FileObj.read]
  omega

theorem ReadFileChunk.read_amountRead (c : ReadFileChunk) (amount : Option Int) :
    (c.read amount).2.2.amountRead = c.amountRead + (c.read amount).1.length := rfl

theorem ReadFileChunk.read_size (c : ReadFileChunk) (amount : Option Int) :
    (c.read amount).2.2.size = c.size := rfl

theorem ReadFileChunk.seek_size (c : ReadFileChunk) (w : Int) :
    (c.seek w).2.size = c.size := rfl

theorem ReadFileChunk.seek_amountRead (c : ReadFileChunk) (w : Int) :
    (c.seek w).2.amountRead = w := rfl

/-- Number of bytes a read returns never exceeds the amount the chunk asked
the underlying object for. -/
theorem ReadFileChunk.read_length_le (c : ReadFileChunk) (amount : Option Int)
    (h1 : c.amountRead ≤ c.size) (ha : ∀ a, amount = some a → 0 ≤ a) :
    ((c.read amount).1.length : Int) ≤ c.size - c.amountRead := by
  cases amount with
  | none =>
    simp only [ReadFileChunk.read, FileObj.read, List.length_take, List.length_drop]
    split <;> omega
  | some a =>
    have h0 : 0 ≤ a := ha a rfl
    simp only [ReadFileChunk.read, FileObj.read, List.length_take, List.length_drop]
    split <;> omega

/-- Expected byte counts for reads on a well-formed chunk. -/
theorem ReadFileChunk.read_length_wf (c : ReadFileChunk) (hwf : ChunkWF c) :
    (((c.read none).1.length : Int) = c.size - c.amountRead) ∧
    (∀ a : Int, 0 ≤ a →
      ((c.read (some a)).1.length : Int) = min a (c.size - c.amountRead)) := by
  obtain ⟨hc0, hcs, hs0, hpos, hfit⟩ := hwf
  constructor
  · have h := FileObj.read_some_length c.fileobj (c.size - c.amountRead)
      (by omega) (by omega)
    show ((c.fileobj.read (some (c.size - c.amountRead))).1.length : Int) = _
    rw [h]
    omega
  · intro a ha
    have h := FileObj.read_some_length c.fileobj (min (c.size - c.amountRead) a)
      (by omega) (by omega)
    show ((c.fileobj.read (some (min (c.size - c.amountRead) a))).1.length : Int) = _
    rw [h]
    omega

/-- Claim C9 theorem: the shared helper invokes every callback, in order, with
the given delta exactly when the delta is non-zero (negative deltas included,
exact zeros suppressed); consequently a read that returned no bytes fires no
callbacks, and a read that returned `n > 0` bytes with callbacks enabled fires
every callback with `n`. -/
theorem claim_C9 (callbacks : List Nat) (delta : Int) (c : ReadFileChunk)
    (amount : Option Int) :
    (delta ≠ 0 →
      invokeProgressCallbacks callbacks delta = callbacks.map fun cb => (cb, delta)) ∧
    (delta = 0 → invokeProgressCallbacks callbacks delta = []) ∧
    ((c.read amount).1.length = 0 → (c.read amount).2.1 = []) ∧
    (c.callbacksEnabled = true → (c.read amount).1.length ≠ 0 →
      (c.read amount).2.1
        = c.callbacks.map fun cb => (cb, ((c.read amount).1.length : Int))) := by
  refine ⟨fun h => by simp [invokeProgressCallbacks, h],
    fun h => by simp [invokeProgressCallbacks, h], ?_, ?_⟩
  · intro h
    show (if c.callbacksEnabled then
        invokeProgressCallbacks c.callbacks ((c.read amount).1.length : Int) else []) = []
    rw [h]
    simp [invokeProgressCallbacks]
  · intro hE h
    show (if c.callbacksEnabled then
        invokeProgressCallbacks c.callbacks ((c.read amount).1.length : Int) else []) = _
    rw [hE]
    simp only [if_true]
    rw [invokeProgressCallbacks, if_neg (by exact_mod_cast h)]

/-- Claim C9 witness: two callbacks at delta 5 and at delta 0; a 2-byte read
on `chunk4` fires its callback with 2; a read on an exhausted window fires
nothing. -/
theorem claim_C9_witness :
    invokeProgressCallbacks [1, 2] 5 = [(1, 5), (2, 5)] ∧
    invokeProgressCallbacks [1, 2] 0 = [] ∧
    (chunkEmpty.read none).2.1 = [] ∧
    (chunk4.read (some 2)).2.1 = [(7, 2)] := by
  refine ⟨(claim_C9 [1, 2] 5 chunk4 none).1 (by decide),
    (claim_C9 [1, 2] 0 chunk4 none).2.1 rfl,
    (claim_C9 [] 0 chunkEmpty none).2.2.1 (by decide), ?_⟩
  have h := (claim_C9 [] 0 chunk4 (some 2)).2.2.2 (by decide) (by decide)
  rw [h]
  decide

/-- Claim C6 theorem: a chunk built from a source of total size `T` at start
`S` with requested size `R` has `windowSize = min(R, T - S)` and reports it as
its length; on a well-formed chunk, `read()` returns exactly the remaining
`windowSize - cursor` bytes, `read(a)` returns `min(a, windowSize - cursor)`
bytes, an exhausted window reads empty; and the spec's concrete example: a
source of size 40, `startByte 36`, requested size 100000 gives length 4, a
read of the final 4 bytes, then an empty read. -/
theorem claim_C6 (data : List Nat) (S R : Int) (cbs : List Nat) (en : Bool)
    (c : ReadFileChunk) (a : Int) (hwf : ChunkWF c) (ha : 0 ≤ a) :
    ((ReadFileChunk.fromFilename data S R cbs en).size
      = min R ((data.length : Int) - S)) ∧
    ((ReadFileChunk.fromFilename data S R cbs en).length
      = min R ((data.length : Int) - S)) ∧
    (0 ≤ S → S ≤ (data.length : Int) → 0 ≤ R →
      ChunkWF (ReadFileChunk.fromFilename data S R cbs en)) ∧
    (((c.read none).1.length : Int) = c.size - c.amountRead) ∧
    (((c.read (some a)).1.length : Int) = min a (c.size - c.amountRead)) ∧
    (c.amountRead = c.size → (c.read none).1 = [] ∧ (c.read (some a)).1 = []) ∧
    (chunkTail.length = 4 ∧ (chunkTail.read none).1 = [36, 37, 38, 39] ∧
      ((chunkTail.read none).2.2.read none).1 = []) := by
  have hlen := ReadFileChunk.read_length_wf c hwf
  refine ⟨?_, ?_, ?_, hlen.1, hlen.2 a ha, ?_, by decide⟩
  · show min ((data.length : Int) - S) R = _
    omega
  · show min ((data.length : Int) - S) R = _
    omega
  · intro hS0 hST hR0
    refine ⟨le_refl 0, ?_, hS0, ?_, ?_⟩ <;>
      simp [ReadFileChunk.fromFilename, ReadFileChunk.mk', FileObj.seek,
        calculateFileSize] <;> omega
  · intro hx
    have h1 : (c.read none).1.length = 0 := by
      have := hlen.1
      omega
    have h2 : (c.read (some a)).1.length = 0 := by
      have := hlen.2 a ha
      omega
    exact ⟨List.length_eq_zero.mp h1, List.length_eq_zero.mp h2⟩

/-- Claim C6 witness: instantiated at the spec's example chunk. -/
theorem claim_C6_witness :
    chunkTail.size = min 100000 ((40 : Int) - 36) ∧
    ((chunkTail.read none).1.length : Int) = chunkTail.size - chunkTail.amountRead ∧
    ((chunkTail.read (some 2)).1.length : Int)
      = min 2 (chunkTail.size - chunkTail.amountRead) := by
  have h := claim_C6 (List.range 40) 36 100000 [] true chunkTail 2
    (by constructor <;> decide) (by decide)
  exact ⟨h.1, h.2.2.2.1, h.2.2.2.2.1⟩

/-- Claim C5 counterexample: with callbacks enabled, a seek to the current
cursor (delta exactly 0) invokes no callback at all, so `seek(offset)` does
not invoke every registered callback with `offset - cursor`: on a fresh chunk
with one callback, `seek(0)` fires nothing instead of firing with 0. -/
theorem claim_C5_counterexample :
    chunk4.callbacksEnabled = true ∧ chunk4.callbacks = [7] ∧
    chunk4.amountRead = 0 ∧
    (chunk4.seek 0).1 ≠ chunk4.callbacks.map fun cb => (cb, (0 : Int) - chunk4.amountRead) := by
  decide

/-- Claim C5 theorem (amended): with callbacks enabled, `seek(offset)` invokes
every registered callback in order with delta `offset - cursor` whenever that
delta is non-zero (negative deltas from backward seeks included; an exact-zero
delta fires nothing), and then sets `cursor = offset`; in particular, on a
chunk starting at offset 0 the sequence read-2, seek-0, read-2 invokes the
progress callback with the values [2, -2, 2] in that order. -/
theorem claim_C5 (c : ReadFileChunk) (offset : Int)
    (hE : c.callbacksEnabled = true) :
    (offset - c.amountRead ≠ 0 →
      (c.seek offset).1 = c.callbacks.map fun cb => (cb, offset - c.amountRead)) ∧
    (offset - c.amountRead = 0 → (c.seek offset).1 = []) ∧
    (c.seek offset).2.amountRead = offset ∧
    ((chunk4.read (some 2)).2.1.map Prod.snd)
      ++ (((chunk4.read (some 2)).2.2.seek 0).1.map Prod.snd)
      ++ ((((chunk4.read (some 2)).2.2.seek 0).2.read (some 2)).2.1.map Prod.snd)
      = [2, -2, 2] := by
  refine ⟨?_, ?_, rfl, by decide⟩
  · intro h
    show (if c.callbacksEnabled then
        invokeProgressCallbacks c.callbacks (offset - c.amountRead) else []) = _
    rw [hE]
    simp only [if_true]
    rw [invokeProgressCallbacks, if_neg h]
  · intro h
    show (if c.callbacksEnabled then
        invokeProgressCallbacks c.callbacks (offset - c.amountRead) else []) = []
    rw [hE]
    simp only [if_true]
    rw [invokeProgressCallbacks, if_pos h]

/-- Claim C5 witness: a backward seek from cursor 2 to 0 on `chunk4` fires the
callback with -2 and resets the cursor. -/
theorem claim_C5_witness :
    ((chunk4.read (some 2)).2.2.seek 0).1 = [(7, -2)] ∧
    ((chunk4.read (some 2)).2.2.seek 0).2.amountRead = 0 := by
  have h := claim_C5 (chunk4.read (some 2)).2.2 0 rfl
  refine ⟨?_, h.2.2.1⟩
  rw [h.1 (by decide)]
  decide

/-- Claim C4 counterexample: `seek` does not clamp, so a seek past the window
leaves the cursor above `windowSize`: on a 4-byte window, `seek(5)` gives
`tell() = 5 > 4`, violating `cursor <= windowSize`. -/
theorem claim_C4_counterexample :
    chunkSmall.size = 4 ∧ (chunkSmall.seek 5).2.size = 4 ∧
    ¬ (chunkSmall.seek 5).2.tell ≤ (chunkSmall.seek 5).2.size := by
  decide

/-- Claim C4 theorem (amended): for any sequence of read and seek operations
in which every seek offset lies within `[0, windowSize]` and every read amount
is a byte count (omitted or non-negative), the cursor satisfies
`0 <= cursor <= windowSize` at every point. -/
theorem claim_C4 (c : ReadFileChunk) (ops : List ChunkOp)
    (h0 : 0 ≤ c.amountRead) (h1 : c.amountRead ≤ c.size)
    (hops : ∀ op ∈ ops, ChunkOpOK c.size op) :
    0 ≤ (runChunk c ops).tell ∧ (runChunk c ops).tell ≤ (runChunk c ops).size := by
  induction ops generalizing c with
  | nil => exact ⟨h0, h1⟩
  | cons op rest ih =>
    cases op with
    | rd a =>
      have hok : ChunkOpOK c.size (.rd a) := hops _ (by simp)
      have ha : ∀ x, a = some x → 0 ≤ x := by
        intro x hx
        cases a with
        | none => cases hx
        | some y =>
          cases hx
          exact hok
      have hle := ReadFileChunk.read_length_le c a h1 ha
      have har := ReadFileChunk.read_amountRead c a
      have hsz := ReadFileChunk.read_size c a
      refine ih (c.read a).2.2 (by omega) (by omega) ?_
      intro op hop
      rw [hsz]
      exact hops _ (by simp [hop])
    | sk w =>
      have hok : ChunkOpOK c.size (.sk w) := hops _ (by simp)
      have hw : 0 ≤ w ∧ w ≤ c.size := hok
      have har := ReadFileChunk.seek_amountRead c w
      have hsz := ReadFileChunk.seek_size c w
      refine ih (c.seek w).2 (by omega) (by omega) ?_
      intro op hop
      rw [hsz]
      exact hops _ (by simp [hop])

/-- Claim C4 witness: a concrete in-window trace on `chunk4`. -/
theorem claim_C4_witness :
    0 ≤ (runChunk chunk4 [.rd (some 2), .sk 1, .rd none]).tell ∧
    (runChunk chunk4 [.rd (some 2), .sk 1, .rd none]).tell
      ≤ (runChunk chunk4 [.rd (some 2), .sk 1, .rd none]).size := by
  exact claim_C4 chunk4 [.rd (some 2), .sk 1, .rd none] (by decide) (by decide)
    (by intro op hop; fin_cases hop <;> simp [ChunkOpOK] <;> decide)

/-! ### Lemmas about the deferred file -/

theorem DeferredOpenFile.openIfNeeded_startByte (d : DeferredOpenFile) :
    d.openIfNeeded.startByte = d.startByte := by
  cases hd : d.fileobj <;> simp [DeferredOpenFile.openIfNeeded, hd]

theorem DeferredOpenFile.read_startByte (d : DeferredOpenFile) (a : Option Int) :
    (d.read a).2.startByte = d.startByte := by
  unfold DeferredOpenFile.read
  cases hd : d.openIfNeeded.fileobj <;>
    simp [hd, DeferredOpenFile.openIfNeeded_startByte]

theorem DeferredOpenFile.seek_startByte (d : DeferredOpenFile) (w : Int) :
    (d.seek w).startByte = d.startByte := by
  unfold DeferredOpenFile.seek
  cases hd : d.openIfNeeded.fileobj <;>
    simp [hd, DeferredOpenFile.openIfNeeded_startByte]

theorem DeferredOpenFile.openIfNeeded_inv (d : DeferredOpenFile)
    (hinv : ∀ f, d.fileobj = some f → d.startByte ≤ f.pos) :
    ∀ f, d.openIfNeeded.fileobj = some f → d.startByte ≤ f.pos := by
  intro f hf
  cases hd : d.fileobj with
  | none =>
    simp [DeferredOpenFile.openIfNeeded, hd] at hf
    subst hf
    exact le_refl _
  | some g =>
    simp [DeferredOpenFile.openIfNeeded, hd] at hf
    subst hf
    exact hinv g hd

theorem DeferredOpenFile.read_inv (d : DeferredOpenFile) (a : Option Int)
    (hinv : ∀ f, d.fileobj = some f → d.startByte ≤ f.pos) :
    ∀ f, (d.read a).2.fileobj = some f → d.startByte ≤ f.pos := by
  intro f hf
  unfold DeferredOpenFile.read at hf
  cases hg : d.openIfNeeded.fileobj with
  | some g =>
    simp [hg] at hf
    subst hf
    calc d.startByte ≤ g.pos := DeferredOpenFile.openIfNeeded_inv d hinv g hg
    _ ≤ (g.read a).2.pos := FileObj.read_pos_ge g a
  | none =>
    simp [hg] at hf

theorem DeferredOpenFile.seek_inv (d : DeferredOpenFile) (w : Int)
    (hw : d.startByte ≤ w) :
    ∀ f, (d.seek w).fileobj = some f → d.startByte ≤ f.pos := by
  intro f hf
  unfold DeferredOpenFile.seek at hf
  cases hg : d.openIfNeeded.fileobj with
  | some g =>
    simp [hg] at hf
    subst hf
    exact hw
  | none =>
    simp [hg] at hf

theorem runDeferred_inv (ops : List DeferredOp) (d : DeferredOpenFile)
    (hops : ∀ op ∈ ops, DeferredOpOK d.startByte op)
    (hinv : ∀ f, d.fileobj = some f → d.startByte ≤ f.pos) :
    (runDeferred d ops).startByte = d.startByte ∧
    ∀ f, (runDeferred d ops).fileobj = some f → d.startByte ≤ f.pos := by
  induction ops generalizing d with
  | nil => exact ⟨rfl, hinv⟩
  | cons op rest ih =>
    cases op with
    | rd a =>
      have hsb := DeferredOpenFile.read_startByte d a
      have h := ih (d.read a).2 (by rw [hsb]; exact fun op hop => hops op (by simp [hop]))
        (by rw [hsb]; exact DeferredOpenFile.read_inv d a hinv)
      rw [hsb] at h
      exact h
    | sk w =>
      have hok : DeferredOpOK d.startByte (.sk w) := hops _ (by simp)
      have hw : d.startByte ≤ w := hok
      have hsb := DeferredOpenFile.seek_startByte d w
      have h := ih (d.seek w) (by rw [hsb]; exact fun op hop => hops op (by simp [hop]))
        (by rw [hsb]; exact DeferredOpenFile.seek_inv d w hw)
      rw [hsb] at h
      exact h
    | ent =>
      have hsb := DeferredOpenFile.openIfNeeded_startByte d
      have h := ih d.openIfNeeded (by rw [hsb]; exact fun op hop => hops op (by simp [hop]))
        (by rw [hsb]; exact DeferredOpenFile.openIfNeeded_inv d hinv)
      rw [hsb] at h
      exact h

/-- Claim C8 counterexample: `seek` on the lazy handle is absolute, so seeking
below `startByte` puts the opened handle's cursor before `startByte`: with
`startByte = 5`, `seek(2)` leaves the handle open at position 2 < 5. -/
theorem claim_C8_counterexample :
    (deferred5.seek 2).fileobj.isSome = true ∧
    (deferred5.seek 2).startByte = 5 ∧
    (deferred5.seek 2).tell = 2 ∧
    ¬ (deferred5.seek 2).startByte ≤ (deferred5.seek 2).tell := by
  decide

/-- Claim C8 theorem (amended): while the handle is absent, `tell()` returns
`startByte` without opening; opening (triggered by read, seek, or entering
scope) seeks to `startByte` immediately; and the underlying cursor stays at
`startByte` or beyond at every subsequent point provided every explicit seek
targets a position at or past `startByte` (reads only move the cursor
forward; an absolute seek below `startByte` would violate it). -/
theorem claim_C8 (content : List Nat) (S : Int) (ops : List DeferredOp)
    (hops : ∀ op ∈ ops, DeferredOpOK S op) :
    (DeferredOpenFile.mk' content S).tell = S ∧
    (DeferredOpenFile.mk' content S).fileobj = none ∧
    (∀ f, (DeferredOpenFile.mk' content S).openIfNeeded.fileobj = some f →
      f.pos = S) ∧
    (∀ f, (runDeferred (DeferredOpenFile.mk' content S) ops).fileobj = some f →
      S ≤ f.pos) := by
  refine ⟨rfl, rfl, ?_, ?_⟩
  · intro f hf
    simp [DeferredOpenFile.mk', DeferredOpenFile.openIfNeeded] at hf
    subst hf
    rfl
  · exact (runDeferred_inv ops (DeferredOpenFile.mk' content S) hops
      (by intro f hf; cases hf)).2

/-- Claim C8 witness: a read-seek-enter trace with an in-range seek. -/
theorem claim_C8_witness :
    deferred5.tell = 5 ∧
    (∀ f, (runDeferred deferred5 [.rd (some 2), .sk 6, .ent]).fileobj = some f →
      5 ≤ f.pos) := by
  have h := claim_C8 (List.range 10) 5 [.rd (some 2), .sk 6, .ent]
    (by intro op hop; fin_cases hop <;> simp [DeferredOpOK])
  exact ⟨h.1, h.2.2.2⟩

/-! ### Failure atomicity of the gate -/

/-- Claim C10 theorem: a failing gate call leaves the state exactly as it was:
a non-blocking acquire can only fail with `NoResourcesAvailable` and a release
only with an unknown-tag or invalid-sequence error, and in every failing case
the returned state (capacity, tag sequences, lowest table, pending queues) is
unchanged. -/
theorem claim_C10 (s : Sem) (t n : Nat) :
    (∀ e s', s.acquire t = (.error e, s') → e = .noResourcesAvailable ∧ s' = s) ∧
    (∀ e s', s.release t n = (.error e, s') →
      (e = .unknownTag ∨ e = .invalidSequence) ∧ s' = s) := by
  constructor
  · intro e s' h
    unfold Sem.acquire at h
    split at h
    · simp only [Prod.mk.injEq, Except.error.injEq] at h
      exact ⟨h.1.symm, h.2.symm⟩
    · simp at h
  · intro e s' h
    unfold Sem.release at h
    split at h
    · simp only [Prod.mk.injEq, Except.error.injEq] at h
      exact ⟨Or.inl h.1.symm, h.2.symm⟩
    · dsimp only at h
      split at h
      · split at h <;> simp at h
      · split at h
        · simp at h
        · simp only [Prod.mk.injEq, Except.error.injEq] at h
          exact ⟨Or.inr h.1.symm, h.2.symm⟩

/-- Claim C10 witness: exhausted-capacity acquire and unknown-tag release on
concrete states leave those states intact. -/
theorem claim_C10_witness :
    ((initSem 0).acquire 3).1 = .error .noResourcesAvailable ∧
    ((initSem 0).acquire 3).2 = initSem 0 ∧
    ((initSem 5).release 3 0).1 = .error .unknownTag ∧
    ((initSem 5).release 3 0).2 = initSem 5 := by
  have h1 : (initSem 0).acquire 3 = (.error .noResourcesAvailable, initSem 0) := rfl
  have h2 : (initSem 5).release 3 0 = (.error .unknownTag, initSem 5) := rfl
  refine ⟨by rw [h1], ?_, by rw [h2], ?_⟩
  · exact ((claim_C10 (initSem 0) 3 0).1 .noResourcesAvailable
      ((initSem 0).acquire 3).2 rfl).2
  · exact ((claim_C10 (initSem 5) 3 0).2 .unknownTag
      ((initSem 5).release 3 0).2 rfl).2

/-! ### Release error characterization -/

/-- Claim C1 counterexample: after acquiring and releasing sequence number 0
on a capacity-1 gate, `lowest = next = 1`, so sequence number 1 lies outside
`[lowest, next)` and was never issued — yet releasing it succeeds (the code's
first branch only compares against `lowest`), even pushing the count above
the initial capacity. -/
theorem claim_C1_counterexample :
    lowOf semDrained 7 = 1 ∧ nextOf semDrained 7 = 1 ∧
    ¬ (lowOf semDrained 7 ≤ 1 ∧ 1 < nextOf semDrained 7) ∧
    (semDrained.release 7 1).1 = .ok () ∧
    semDrained.currentCount = 1 ∧
    (semDrained.release 7 1).2.currentCount = 2 := by
  decide

/-- Claim C1 theorem (amended): for a tag with acquire history, release fails
with `InvalidSequence` exactly when the sequence number is neither equal to
`lowestUnreleased[tag]` nor strictly between it and `nextSequence[tag]`.
Consequently a double release of a number the gate has already advanced past
(`sequenceNumber < lowestUnreleased`) fails as the spec demands, but two
gaps remain: releasing `sequenceNumber = lowestUnreleased` succeeds even when
it equals `nextSequence` (never issued), and a second release of a number
still queued as pending succeeds again (queueing a duplicate). -/
theorem claim_C1 (s : Sem) (t n mx : Nat)
    (h : assocLookup s.tagSequences t = some mx) :
    ((s.release t n).1 = .error .invalidSequence ↔
      (n ≠ lowOf s t ∧ ¬(lowOf s t < n ∧ n < mx))) ∧
    (n < lowOf s t → (s.release t n).1 = .error .invalidSequence) ∧
    ((lowOf s t < n ∧ n < mx) → (s.release t n).1 = .ok ()) := by
  have hok1 : lowOf s t = n → (s.release t n).1 = .ok () := by
    intro h1
    unfold Sem.release
    rw [h]
    dsimp only
    rw [if_pos h1]
    cases hp : assocLookup s.pendingRelease t <;> simp [hp]
  have hok2 : ¬ lowOf s t = n → (lowOf s t < n ∧ n < mx) →
      (s.release t n).1 = .ok () := by
    intro h1 h2
    unfold Sem.release
    rw [h]
    dsimp only
    rw [if_neg h1, if_pos h2]
  have herr : ¬ lowOf s t = n → ¬ (lowOf s t < n ∧ n < mx) →
      (s.release t n).1 = .error .invalidSequence := by
    intro h1 h2
    unfold Sem.release
    rw [h]
    dsimp only
    rw [if_neg h1, if_neg h2]
  by_cases h1 : lowOf s t = n
  · refine ⟨?_, fun hx => by omega, fun _ => hok1 h1⟩
    rw [hok1 h1]
    constructor
    · intro hx
      cases hx
    · intro hx
      exact absurd h1.symm hx.1
  · by_cases h2 : lowOf s t < n ∧ n < mx
    · refine ⟨?_, fun hx => by omega, fun _ => hok2 h1 h2⟩
      rw [hok2 h1 h2]
      constructor
      · intro hx
        cases hx
      · intro hx
        exact absurd h2 hx.2
    · refine ⟨?_, fun _ => herr h1 h2, fun hx => absurd hx h2⟩
      rw [herr h1 h2]
      exact ⟨fun _ => ⟨fun hh => h1 hh.symm, h2⟩, fun _ => rfl⟩

/-- Claim C1 witness: a never-issued number well above the window fails, and a
double release of an already-processed number fails. -/
theorem claim_C1_witness :
    (semPending.release 7 5).1 = .error .invalidSequence ∧
    (semDrained.release 7 0).1 = .error .invalidSequence := by
  refine ⟨?_, ?_⟩
  · exact ((claim_C1 semPending 7 5 4 (by decide)).1).mpr (by decide)
  · exact (claim_C1 semDrained 7 0 1 (by decide)).2.1 (by decide)

/-! ### Step lemmas for the semaphore -/

theorem Sem.acquire_error (s : Sem) (t : Nat) (hc : s.count = 0) :
    s.acquire t = (.error .noResourcesAvailable, s) := by
  unfold Sem.acquire
  rw [if_pos hc]

theorem Sem.acquire_ok (s : Sem) (t : Nat) (hc : s.count ≠ 0) :
    s.acquire t = (.ok (nextOf s t),
      { s with
        tagSequences := assocSet s.tagSequences t (nextOf s t + 1),
        lowestSequence := if nextOf s t = 0
          then assocSet s.lowestSequence t (nextOf s t)
          else s.lowestSequence,
        count := s.count - 1 }) := by
  unfold Sem.acquire
  rw [if_neg hc]

theorem drainAsc_ge (l : List Nat) (low : Nat) : low ≤ (drainAsc low l).1 := by
  induction l generalizing low with
  | nil => exact le_refl _
  | cons x rest ih =>
    unfold drainAsc
    split
    · exact le_trans (Nat.le_succ low) (ih (low + 1))
    · exact le_refl _

/-- Characterization of the drain loop: it pops exactly the leading run
`low, low+1, ...` of the ascending queue and stops at the first mismatch. -/
theorem drainAsc_spec (l : List Nat) (low : Nat) :
    ∃ k, (drainAsc low l).1 = low + k ∧ (drainAsc low l).2 = l.drop k ∧
      (∀ j, j < k → l[j]? = some (low + j)) ∧
      (l.drop k = [] ∨ l[k]? ≠ some (low + k)) := by
  induction l generalizing low with
  | nil => exact ⟨0, rfl, rfl, fun j hj => absurd hj (Nat.not_lt_zero j), Or.inl rfl⟩
  | cons x rest ih =>
    by_cases hx : x = low
    · obtain ⟨k, h1, h2, h3, h4⟩ := ih (low + 1)
      refine ⟨k + 1, ?_, ?_, ?_, ?_⟩
      · unfold drainAsc
        rw [if_pos hx, h1]
        omega
      · unfold drainAsc
        rw [if_pos hx, h2]
        rfl
      · intro j hj
        cases j with
        | zero => simp [hx]
        | succ i =>
          have := h3 i (by omega)
          simpa [Nat.add_assoc, Nat.add_comm 1 i, Nat.add_left_comm] using this
      · cases h4 with
        | inl h => exact Or.inl h
        | inr h =>
          refine Or.inr ?_
          simpa [Nat.add_assoc, Nat.add_comm 1 k, Nat.add_left_comm] using h
    · refine ⟨0, ?_, ?_, fun j hj => absurd hj (Nat.not_lt_zero j), ?_⟩
      · unfold drainAsc
        rw [if_neg hx]
        rfl
      · unfold drainAsc
        rw [if_neg hx]
        rfl
      · refine Or.inr ?_
        simp [hx]

theorem Sem.release_min_components (s : Sem) (t mx : Nat)
    (h : assocLookup s.tagSequences t = some mx) :
    (s.release t (lowOf s t)).1 = .ok () ∧
    (s.release t (lowOf s t)).2.count
      = s.count + 1
        + ((drainAsc (lowOf s t + 1) (pendingOf s t).reverse).1 - (lowOf s t + 1)) ∧
    (s.release t (lowOf s t)).2.tagSequences = s.tagSequences ∧
    assocLookup (s.release t (lowOf s t)).2.lowestSequence t
      = some (drainAsc (lowOf s t + 1) (pendingOf s t).reverse).1 ∧
    (∀ u, u ≠ t → assocLookup (s.release t (lowOf s t)).2.lowestSequence u
      = assocLookup s.lowestSequence u) ∧
    pendingOf (s.release t (lowOf s t)).2 t
      = (drainAsc (lowOf s t + 1) (pendingOf s t).reverse).2.reverse ∧
    (∀ u, u ≠ t → pendingOf (s.release t (lowOf s t)).2 u = pendingOf s u) := by
  unfold Sem.release
  rw [h]
  dsimp only
  rw [if_pos rfl]
  cases hp : assocLookup s.pendingRelease t with
  | none =>
    have hpd : pendingOf s t = [] := by simp [pendingOf, hp]
    rw [hpd]
    refine ⟨rfl, by simp [drainAsc], rfl, ?_, ?_, ?_, ?_⟩
    · simp [assocLookup_assocSet, drainAsc]
    · intro u hu
      exact assocLookup_assocSet_ne _ _ _ _ (fun he => hu he.symm)
    · simp [pendingOf, hp, drainAsc]
    · intro u hu
      rfl
  | some queued =>
    have hpd : pendingOf s t = queued := by simp [pendingOf, hp]
    rw [hpd]
    refine ⟨rfl, rfl, rfl, ?_, ?_, ?_, ?_⟩
    · simp [assocLookup_assocSet]
    · intro u hu
      rw [assocLookup_assocSet_ne _ _ _ _ (fun he => hu he.symm),
        assocLookup_assocSet_ne _ _ _ _ (fun he => hu he.symm)]
    · simp [pendingOf, assocLookup_assocSet]
    · intro u hu
      simp [pendingOf, assocLookup_assocSet_ne _ _ _ _ (fun he => hu he.symm)]

theorem Sem.release_pending_eq (s : Sem) (t n mx : Nat)
    (h : assocLookup s.tagSequences t = some mx)
    (h1 : ¬ lowOf s t = n) (h2 : lowOf s t < n ∧ n < mx) :
    s.release t n = (.ok (), { s with
      pendingRelease := assocSet s.pendingRelease t
        (sortDesc (pendingOf s t ++ [n])) }) := by
  unfold Sem.release
  rw [h]
  dsimp only
  rw [if_neg h1, if_pos h2]

theorem Sem.release_tagSequences (s : Sem) (t n : Nat) :
    (s.release t n).2.tagSequences = s.tagSequences := by
  unfold Sem.release
  cases h : assocLookup s.tagSequences t with
  | none => rfl
  | some mx =>
    dsimp only
    split
    · split <;> rfl
    · split <;> rfl

/-- Monotone per-tag sequencing along any successful trace: the acquires
logged for a tag form the contiguous range from the tag's starting counter to
its final counter. -/
theorem runGate_nextOf (ops : List GateOp) (s s' : Sem) (log : List (Nat × Nat))
    (h : runGate s ops = some (s', log)) (t : Nat) :
    nextOf s t ≤ nextOf s' t ∧
    (log.filter (fun p => p.1 = t)).map Prod.snd
      = List.range' (nextOf s t) (nextOf s' t - nextOf s t) := by
  induction ops generalizing s log with
  | nil =>
    unfold runGate at h
    simp only [Option.some.injEq, Prod.mk.injEq] at h
    obtain ⟨hs, hl⟩ := h
    subst hs
    subst hl
    simp
  | cons op rest ih =>
    cases op with
    | acq u =>
      unfold runGate at h
      by_cases hc : s.count = 0
      · rw [Sem.acquire_error s u hc] at h
        simp at h
      · rw [Sem.acquire_ok s u hc] at h
        dsimp only at h
        cases hrun : runGate { s with
            tagSequences := assocSet s.tagSequences u (nextOf s u + 1),
            lowestSequence := if nextOf s u = 0
              then assocSet s.lowestSequence u (nextOf s u)
              else s.lowestSequence,
            count := s.count - 1 } rest with
        | none =>
          rw [hrun] at h
          simp at h
        | some pr =>
          rw [hrun] at h
          simp only [Option.map_some', Option.some.injEq, Prod.mk.injEq] at h
          obtain ⟨hs, hl⟩ := h
          subst hs
          subst hl
          obtain ⟨mono, hrange⟩ := ih _ _ hrun
          have hnext2 : nextOf { s with
              tagSequences := assocSet s.tagSequences u (nextOf s u + 1),
              lowestSequence := if nextOf s u = 0
                then assocSet s.lowestSequence u (nextOf s u)
                else s.lowestSequence,
              count := s.count - 1 } t
              = if u = t then nextOf s u + 1 else nextOf s t := by
            unfold nextOf
            dsimp only
            rw [assocLookup_assocSet]
            split <;> rfl
          by_cases ht : u = t
          · subst ht
            rw [if_pos rfl] at hnext2
            rw [hnext2] at mono hrange
            refine ⟨by omega, ?_⟩
            have hfilter : List.filter (fun p => decide (p.1 = u)) ((u, nextOf s u) :: pr.2)
                = (u, nextOf s u) :: List.filter (fun p => decide (p.1 = u)) pr.2 := by
              simp
            rw [hfilter, List.map_cons, hrange,
              show nextOf pr.1 u - nextOf s u = (nextOf pr.1 u - (nextOf s u + 1)) + 1
                from by omega, List.range'_succ]
          · rw [if_neg ht] at hnext2
            rw [hnext2] at mono hrange
            refine ⟨mono, ?_⟩
            have hfilter : List.filter (fun p => decide (p.1 = t)) ((u, nextOf s u) :: pr.2)
                = List.filter (fun p => decide (p.1 = t)) pr.2 := by
              simp [ht]
            rw [hfilter]
            exact hrange
    | rel u m =>
      unfold runGate at h
      rcases hr : s.release u m with ⟨r, s2⟩
      rw [hr] at h
      cases r with
      | error e => simp at h
      | ok v =>
        dsimp only at h
        have hts : s2.tagSequences = s.tagSequences := by
          have h2 := Sem.release_tagSequences s u m
          rw [hr] at h2
          exact h2
        have hnx : ∀ w, nextOf s2 w = nextOf s w := by
          intro w
          unfold nextOf
          rw [hts]
        obtain ⟨mono, hrange⟩ := ih _ _ h
        rw [hnx t] at mono hrange
        exact ⟨mono, hrange⟩

/-- Claim C7 theorem: along any successful trace from a fresh gate, the
acquires logged for a fixed tag are exactly `0, 1, 2, ...` up to the tag's
final `nextSequence`, with no gaps or repeats regardless of interleaving; a
successful acquire returns `nextSequence[tag]`, increments it, leaves other
tags' counters alone and decrements the capacity; and the first acquire of a
new tag returns 0, recording 0 as the tag's `lowestUnreleased`. -/
theorem claim_C7 (C : Nat) (ops : List GateOp) (s : Sem) (log : List (Nat × Nat))
    (t : Nat) (h : runGate (initSem C) ops = some (s, log))
    (s0 : Sem) (hc : s0.count ≠ 0) :
    ((log.filter (fun p => p.1 = t)).map Prod.snd = List.range (nextOf s t)) ∧
    ((s0.acquire t).1 = .ok (nextOf s0 t) ∧
      nextOf (s0.acquire t).2 t = nextOf s0 t + 1 ∧
      (∀ u, u ≠ t → nextOf (s0.acquire t).2 u = nextOf s0 u) ∧
      (s0.acquire t).2.count = s0.count - 1) ∧
    (assocLookup s0.tagSequences t = none →
      (s0.acquire t).1 = .ok 0 ∧ lowOf (s0.acquire t).2 t = 0) := by
  have hinit : nextOf (initSem C) t = 0 := rfl
  obtain ⟨-, hrange⟩ := runGate_nextOf ops (initSem C) s log h t
  rw [hinit, Nat.sub_zero, ← List.range_eq_range'] at hrange
  have hacq := Sem.acquire_ok s0 t hc
  refine ⟨hrange, ⟨?_, ?_, ?_, ?_⟩, ?_⟩
  · rw [hacq]
  · rw [hacq]
    unfold nextOf
    dsimp only
    rw [assocLookup_assocSet_self]
    rfl
  · intro u hu
    rw [hacq]
    unfold nextOf
    dsimp only
    rw [assocLookup_assocSet_ne _ _ _ _ (fun he => hu he.symm)]
  · rw [hacq]
  · intro habs
    have h0 : nextOf s0 t = 0 := by
      unfold nextOf
      rw [habs]
      rfl
    constructor
    · rw [hacq, h0]
    · rw [hacq]
      unfold lowOf
      dsimp only
      rw [h0]
      simp [assocLookup_assocSet_self]

/-- Claim C7 witness: interleaved acquires for tags 7 and 9 give tag 7 the
results `[0, 1]`; a fresh acquire on a new tag returns 0. -/
theorem claim_C7_witness :
    (logC7.filter (fun p => p.1 = 7)).map Prod.snd = List.range (nextOf semC7 7) ∧
    ((initSem 2).acquire 7).1 = .ok (nextOf (initSem 2) 7) ∧
    lowOf ((initSem 2).acquire 7).2 7 = 0 := by
  have h := claim_C7 3 opsC7 semC7 logC7 7 (by decide) (initSem 2) (by decide)
  exact ⟨h.1, h.2.1.1, (h.2.2 rfl).2⟩

/-! ### The outstanding-units sum -/

theorem assocLookup_eq_none_iff {α : Type} (l : List (Nat × α)) (t : Nat) :
    assocLookup l t = none ↔ ∀ p ∈ l, p.1 ≠ t := by
  induction l with
  | nil => simp [assocLookup]
  | cons p rest ih =>
    obtain ⟨k, x⟩ := p
    by_cases hk : k = t <;> simp [assocLookup, hk, ih]

theorem mem_assocSet {α : Type} (l : List (Nat × α)) (t : Nat) (v : α) :
    ∀ p ∈ assocSet l t v, p ∈ l ∨ p = (t, v) := by
  induction l with
  | nil => simp [assocSet]
  | cons q rest ih =>
    obtain ⟨k, x⟩ := q
    intro p hp
    by_cases hk : k = t
    · rw [assocSet, if_pos hk] at hp
      rcases List.mem_cons.mp hp with hp1 | hp1
      · exact Or.inr hp1
      · exact Or.inl (List.mem_cons_of_mem _ hp1)
    · rw [assocSet, if_neg hk] at hp
      rcases List.mem_cons.mp hp with hp1 | hp1
      · exact Or.inl (by rw [hp1]; exact List.mem_cons_self _ _)
      · rcases ih p hp1 with hh | hh
        · exact Or.inl (List.mem_cons_of_mem _ hh)
        · exact Or.inr hh

theorem assocSet_keys_nodup {α : Type} (l : List (Nat × α)) (t : Nat) (v : α)
    (h : (l.map Prod.fst).Nodup) : ((assocSet l t v).map Prod.fst).Nodup := by
  induction l with
  | nil => simp [assocSet]
  | cons q rest ih =>
    obtain ⟨k, x⟩ := q
    simp only [List.map_cons, List.nodup_cons] at h
    by_cases hk : k = t
    · rw [assocSet, if_pos hk]
      simp only [List.map_cons, List.nodup_cons]
      exact ⟨hk ▸ h.1, h.2⟩
    · rw [assocSet, if_neg hk]
      simp only [List.map_cons, List.nodup_cons]
      refine ⟨?_, ih h.2⟩
      intro hmem
      rcases List.mem_map.mp hmem with ⟨p, hp, hpk⟩
      rcases mem_assocSet rest t v p hp with hh | hh
      · exact h.1 (List.mem_map.mpr ⟨p, hh, hpk⟩)
      · exact hk (by rw [hh] at hpk; exact hpk ▸ rfl)

theorem outstandingAux_set_present (lows l : List (Nat × Nat)) (t v w : Nat)
    (h : assocLookup l t = some w) :
    outstandingAux lows (assocSet l t v)
      = outstandingAux lows l + (v : Int) - (w : Int) := by
  induction l with
  | nil => simp [assocLookup] at h
  | cons q rest ih =>
    obtain ⟨k, x⟩ := q
    by_cases hk : k = t
    · subst hk
      rw [assocLookup, if_pos rfl, Option.some.injEq] at h
      subst h
      rw [assocSet, if_pos rfl]
      unfold outstandingAux
      simp only [List.foldr_cons]
      ring
    · rw [assocLookup, if_neg hk] at h
      rw [assocSet, if_neg hk]
      unfold outstandingAux
      simp only [List.foldr_cons]
      have := ih h
      unfold outstandingAux at this
      rw [this]
      ring

theorem outstandingAux_set_absent (lows l : List (Nat × Nat)) (t v : Nat)
    (h : assocLookup l t = none) :
    outstandingAux lows (assocSet l t v)
      = outstandingAux lows l + (v : Int)
        - (((assocLookup lows t).getD 0 : Nat) : Int) := by
  induction l with
  | nil =>
    unfold assocSet outstandingAux
    simp
  | cons q rest ih =>
    obtain ⟨k, x⟩ := q
    rw [assocLookup] at h
    by_cases hk : k = t
    · rw [if_pos hk] at h
      cases h
    · rw [if_neg hk] at h
      rw [assocSet, if_neg hk]
      unfold outstandingAux
      simp only [List.foldr_cons]
      have := ih h
      unfold outstandingAux at this
      rw [this]
      ring

theorem outstandingAux_lows_irrel (lows lows' l : List (Nat × Nat))
    (h : ∀ p ∈ l, assocLookup lows p.1 = assocLookup lows' p.1) :
    outstandingAux lows l = outstandingAux lows' l := by
  induction l with
  | nil => rfl
  | cons q rest ih =>
    unfold outstandingAux
    simp only [List.foldr_cons]
    have h1 := h q (List.mem_cons_self _ _)
    rw [h1]
    have := ih fun p hp => h p (List.mem_cons_of_mem _ hp)
    unfold outstandingAux at this
    rw [this]

theorem outstandingAux_lows_set_absent (lows l : List (Nat × Nat)) (t w : Nat)
    (h : assocLookup l t = none) :
    outstandingAux (assocSet lows t w) l = outstandingAux lows l := by
  refine outstandingAux_lows_irrel _ _ _ ?_
  intro p hp
  have := (assocLookup_eq_none_iff l t).mp h p hp
  exact assocLookup_assocSet_ne _ _ _ _ fun he => this he.symm

theorem outstandingAux_lows_set_present (lows l : List (Nat × Nat)) (t w mx : Nat)
    (hnd : (l.map Prod.fst).Nodup) (h : assocLookup l t = some mx) :
    outstandingAux (assocSet lows t w) l
      = outstandingAux lows l + (((assocLookup lows t).getD 0 : Nat) : Int)
        - (w : Int) := by
  induction l with
  | nil => simp [assocLookup] at h
  | cons q rest ih =>
    obtain ⟨k, x⟩ := q
    simp only [List.map_cons, List.nodup_cons] at hnd
    by_cases hk : k = t
    · subst hk
      have hnone : assocLookup rest k = none := by
        rw [assocLookup_eq_none_iff]
        intro p hp he
        exact hnd.1 (List.mem_map.mpr ⟨p, hp, he⟩)
      unfold outstandingAux
      simp only [List.foldr_cons]
      rw [assocLookup_assocSet_self]
      have := outstandingAux_lows_set_absent lows rest k w hnone
      unfold outstandingAux at this
      rw [this]
      simp only [Option.getD_some]
      ring
    · rw [assocLookup, if_neg hk] at h
      unfold outstandingAux
      simp only [List.foldr_cons]
      rw [assocLookup_assocSet_ne _ _ _ _ fun he => hk he.symm]
      have := ih hnd.2 h
      unfold outstandingAux at this
      rw [this]
      ring

/-! ### Well-formedness preservation and conservation -/

theorem sortDesc_sorted (l : List Nat) :
    List.Sorted (fun a b => b ≤ a) (sortDesc l) := by
  haveI : IsTotal Nat (fun a b : Nat => b ≤ a) := ⟨fun a b => le_total b a⟩
  haveI : IsTrans Nat (fun a b : Nat => b ≤ a) := ⟨fun _ _ _ hab hbc => le_trans hbc hab⟩
  exact List.sorted_insertionSort _ l

theorem sortDesc_perm (l : List Nat) : (sortDesc l).Perm l :=
  List.perm_insertionSort _ l

theorem Sem.release_unknown (s : Sem) (u n : Nat)
    (h : assocLookup s.tagSequences u = none) :
    s.release u n = (.error .unknownTag, s) := by
  unfold Sem.release
  rw [h]

theorem Sem.release_invalid (s : Sem) (u n mx : Nat)
    (h : assocLookup s.tagSequences u = some mx)
    (h1 : ¬ lowOf s u = n) (h2 : ¬ (lowOf s u < n ∧ n < mx)) :
    s.release u n = (.error .invalidSequence, s) := by
  unfold Sem.release
  rw [h]
  dsimp only
  rw [if_neg h1, if_neg h2]

theorem wf_initSem (C : Nat) : wfSem (initSem C) := by
  refine ⟨List.nodup_nil, by simp [initSem], ?_, ?_⟩
  · intro t
    simp [pendingOf, initSem, assocLookup]
  · intro t _
    simp [pendingOf, initSem, assocLookup]

/-- Combined description of a release of the current minimum: one unit freed
immediately, then `k` more by the drain loop, which consumes exactly the
leading run of the ascending view of the pending queue. -/
theorem Sem.release_min_drained (s : Sem) (u mx : Nat)
    (h : assocLookup s.tagSequences u = some mx) :
    ∃ k, k ≤ (pendingOf s u).length ∧
      (s.release u (lowOf s u)).1 = .ok () ∧
      (s.release u (lowOf s u)).2.count = s.count + 1 + k ∧
      lowOf (s.release u (lowOf s u)).2 u = lowOf s u + 1 + k ∧
      pendingOf (s.release u (lowOf s u)).2 u
        = (pendingOf s u).take ((pendingOf s u).length - k) ∧
      (∀ j, j < k → (pendingOf s u).reverse[j]? = some (lowOf s u + 1 + j)) ∧
      ((pendingOf s u).reverse.drop k = [] ∨
        (pendingOf s u).reverse[k]? ≠ some (lowOf s u + 1 + k)) := by
  obtain ⟨hok, hcount, hseq, hlowu, hlowne, hpendu, hpendne⟩ :=
    Sem.release_min_components s u mx h
  obtain ⟨k, hd1, hd2, hd3, hd4⟩ := drainAsc_spec (pendingOf s u).reverse (lowOf s u + 1)
  have hklen : k ≤ (pendingOf s u).length := by
    cases k with
    | zero => exact Nat.zero_le _
    | succ i =>
      have := hd3 i (Nat.lt_succ_self i)
      have hlt : i < (pendingOf s u).reverse.length := by
        by_contra hge
        rw [List.getElem?_eq_none (by omega)] at this
        cases this
      rw [List.length_reverse] at hlt
      omega
  refine ⟨k, hklen, hok, ?_, ?_, ?_, ?_, ?_⟩
  · rw [hcount, hd1]
    omega
  · have hdef : lowOf (s.release u (lowOf s u)).2 u
        = (assocLookup (s.release u (lowOf s u)).2.lowestSequence u).getD 0 := rfl
    rw [hdef, hlowu, hd1]
    rfl
  · rw [hpendu, hd2, List.drop_reverse, List.reverse_reverse]
  · exact hd3
  · exact hd4

theorem wf_acquire (s : Sem) (u : Nat) (hwf : wfSem s) (hc : s.count ≠ 0) :
    wfSem (s.acquire u).2 := by
  obtain ⟨hnd, hval, hsort, habs⟩ := hwf
  rw [Sem.acquire_ok s u hc]
  refine ⟨assocSet_keys_nodup _ _ _ hnd, ?_, ?_, ?_⟩
  · intro p hp
    rcases mem_assocSet _ _ _ p hp with hh | hh
    · exact hval p hh
    · rw [hh]
      exact Nat.succ_le_succ (Nat.zero_le _)
  · intro t
    exact hsort t
  · intro t ht
    dsimp only at ht
    by_cases hut : u = t
    · rw [hut, assocLookup_assocSet_self] at ht
      cases ht
    · rw [assocLookup_assocSet_ne _ _ _ _ hut] at ht
      obtain ⟨hp, hl⟩ := habs t ht
      refine ⟨hp, ?_⟩
      dsimp only
      split
      · rw [assocLookup_assocSet_ne _ _ _ _ hut]
        exact hl
      · exact hl

theorem wf_release (s : Sem) (u n : Nat) (hwf : wfSem s)
    (hok : (s.release u n).1 = .ok ()) : wfSem (s.release u n).2 := by
  obtain ⟨hnd, hval, hsort, habs⟩ := hwf
  cases hl : assocLookup s.tagSequences u with
  | none =>
    rw [Sem.release_unknown s u n hl] at hok
    cases hok
  | some mx =>
    by_cases h1 : lowOf s u = n
    · subst h1
      obtain ⟨k, hklen, _, hcount, hlow, hpendu, _, _⟩ :=
        Sem.release_min_drained s u mx hl
      obtain ⟨_, _, hseq, hlowu, hlowne, _, hpendne⟩ :=
        Sem.release_min_components s u mx hl
      refine ⟨by rw [hseq]; exact hnd, by rw [hseq]; exact hval, ?_, ?_⟩
      · intro t
        by_cases hut : t = u
        · rw [hut, hpendu]
          exact List.Pairwise.sublist (List.take_sublist _ _) (hsort u)
        · rw [hpendne t hut]
          exact hsort t
      · intro t ht
        rw [hseq] at ht
        have hut : t ≠ u := fun he => by rw [he, hl] at ht; cases ht
        obtain ⟨hp, hlw⟩ := habs t ht
        exact ⟨by rw [hpendne t hut]; exact hp,
          by rw [hlowne t hut]; exact hlw⟩
    · by_cases h2 : lowOf s u < n ∧ n < mx
      · rw [Sem.release_pending_eq s u n mx hl h1 h2]
        refine ⟨hnd, hval, ?_, ?_⟩
        · intro t
          by_cases hut : t = u
          · subst hut
            show List.Sorted _ ((assocLookup (assocSet s.pendingRelease t
              (sortDesc (pendingOf s t ++ [n]))) t).getD [])
            rw [assocLookup_assocSet_self]
            exact sortDesc_sorted _
          · show List.Sorted _ ((assocLookup (assocSet s.pendingRelease u
              (sortDesc (pendingOf s u ++ [n]))) t).getD [])
            rw [assocLookup_assocSet_ne _ _ _ _ fun he => hut he.symm]
            exact hsort t
        · intro t ht
          have hut : t ≠ u := fun he => by rw [he, hl] at ht; cases ht
          obtain ⟨hp, hlw⟩ := habs t ht
          refine ⟨?_, hlw⟩
          show ((assocLookup (assocSet s.pendingRelease u
            (sortDesc (pendingOf s u ++ [n]))) t).getD []) = []
          rw [assocLookup_assocSet_ne _ _ _ _ fun he => hut he.symm]
          exact hp
      · rw [Sem.release_invalid s u n mx hl h1 h2] at hok
        cases hok

theorem assocLookup_mem {α : Type} (l : List (Nat × α)) (t : Nat) (v : α)
    (h : assocLookup l t = some v) : (t, v) ∈ l := by
  induction l with
  | nil => simp [assocLookup] at h
  | cons q rest ih =>
    obtain ⟨k, x⟩ := q
    rw [assocLookup] at h
    by_cases hk : k = t
    · rw [if_pos hk, Option.some.injEq] at h
      subst h
      subst hk
      exact List.mem_cons_self _ _
    · rw [if_neg hk] at h
      exact List.mem_cons_of_mem _ (ih h)

theorem Q_acquire (s : Sem) (u : Nat) (hwf : wfSem s) (hc : s.count ≠ 0) :
    outstanding (s.acquire u).2 + ((s.acquire u).2.count : Int)
      = outstanding s + (s.count : Int) := by
  obtain ⟨hnd, hval, _, _⟩ := hwf
  rw [Sem.acquire_ok s u hc]
  cases hl : assocLookup s.tagSequences u with
  | some w =>
    have hmem := assocLookup_mem _ _ _ hl
    have hw : 1 ≤ w := hval _ hmem
    have hnx : nextOf s u = w := by
      unfold nextOf
      rw [hl]
      rfl
    have hnz : ¬ nextOf s u = 0 := by omega
    unfold outstanding
    dsimp only
    rw [if_neg hnz, outstandingAux_set_present s.lowestSequence _ u _ w hl]
    rw [hnx]
    push_cast
    omega
  | none =>
    have h0 : nextOf s u = 0 := by
      unfold nextOf
      rw [hl]
      rfl
    unfold outstanding
    dsimp only
    rw [h0, if_pos rfl,
      outstandingAux_set_absent (assocSet s.lowestSequence u 0) _ u _ hl,
      outstandingAux_lows_set_absent _ _ u _ hl,
      assocLookup_assocSet_self]
    simp only [Option.getD_some]
    push_cast
    omega

theorem Q_release (s : Sem) (u n : Nat) (hwf : wfSem s)
    (hok : (s.release u n).1 = .ok ()) :
    outstanding (s.release u n).2 + ((s.release u n).2.count : Int)
      = outstanding s + (s.count : Int) := by
  obtain ⟨hnd, hval, hsort, habs⟩ := hwf
  cases hl : assocLookup s.tagSequences u with
  | none =>
    rw [Sem.release_unknown s u n hl] at hok
    cases hok
  | some mx =>
    by_cases h1 : lowOf s u = n
    · subst h1
      obtain ⟨k, hklen, _, hcount, hlow, _, _, _⟩ :=
        Sem.release_min_drained s u mx hl
      obtain ⟨_, _, hseq, hlowu, hlowne, _, _⟩ :=
        Sem.release_min_components s u mx hl
      have hdrain : (drainAsc (lowOf s u + 1) (pendingOf s u).reverse).1
          = lowOf s u + 1 + k := by
        have hdef : lowOf (s.release u (lowOf s u)).2 u
            = (assocLookup (s.release u (lowOf s u)).2.lowestSequence u).getD 0 := rfl
        rw [hdef, hlowu] at hlow
        simpa using hlow
      unfold outstanding
      rw [hseq]
      have hirrel : outstandingAux (s.release u (lowOf s u)).2.lowestSequence
            s.tagSequences
          = outstandingAux (assocSet s.lowestSequence u (lowOf s u + 1 + k))
            s.tagSequences := by
        apply outstandingAux_lows_irrel
        intro p hp
        by_cases hpu : p.1 = u
        · rw [hpu, hlowu, hdrain, assocLookup_assocSet_self]
        · rw [hlowne p.1 hpu,
            assocLookup_assocSet_ne _ _ _ _ fun he => hpu he.symm]
      rw [hirrel,
        outstandingAux_lows_set_present s.lowestSequence s.tagSequences u _ mx hnd hl,
        hcount]
      have hlowdef : ((assocLookup s.lowestSequence u).getD 0 : Nat) = lowOf s u := rfl
      rw [hlowdef]
      push_cast
      omega
    · by_cases h2 : lowOf s u < n ∧ n < mx
      · rw [Sem.release_pending_eq s u n mx hl h1 h2]
        rfl
      · rw [Sem.release_invalid s u n mx hl h1 h2] at hok
        cases hok

/-- Along any successful trace the state stays well-formed and the quantity
`outstanding + count` is conserved. -/
theorem runGate_QWf (ops : List GateOp) (s s' : Sem) (log : List (Nat × Nat))
    (h : runGate s ops = some (s', log)) (hwf : wfSem s) :
    wfSem s' ∧
    outstanding s' + (s'.count : Int) = outstanding s + (s.count : Int) := by
  induction ops generalizing s log with
  | nil =>
    unfold runGate at h
    simp only [Option.some.injEq, Prod.mk.injEq] at h
    obtain ⟨hs, -⟩ := h
    subst hs
    exact ⟨hwf, rfl⟩
  | cons op rest ih =>
    cases op with
    | acq u =>
      unfold runGate at h
      by_cases hc : s.count = 0
      · rw [Sem.acquire_error s u hc] at h
        simp at h
      · have hacq := Sem.acquire_ok s u hc
        rw [show s.acquire u = (.ok (nextOf s u), (s.acquire u).2) from by rw [hacq]]
          at h
        dsimp only at h
        have hwf2 := wf_acquire s u ⟨hwf.1, hwf.2.1, hwf.2.2.1, hwf.2.2.2⟩ hc
        have hQ2 := Q_acquire s u ⟨hwf.1, hwf.2.1, hwf.2.2.1, hwf.2.2.2⟩ hc
        cases hrun : runGate (s.acquire u).2 rest with
        | none =>
          rw [hrun] at h
          simp at h
        | some pr =>
          rw [hrun] at h
          simp only [Option.map_some', Option.some.injEq, Prod.mk.injEq] at h
          obtain ⟨hs, -⟩ := h
          subst hs
          obtain ⟨hwf', hQ⟩ := ih _ _ hrun hwf2
          exact ⟨hwf', hQ.trans hQ2⟩
    | rel u m =>
      unfold runGate at h
      rcases hr : s.release u m with ⟨r, s2⟩
      rw [hr] at h
      cases r with
      | error e => simp at h
      | ok v =>
        dsimp only at h
        have hok : (s.release u m).1 = .ok () := by rw [hr]
        have hwf2 := wf_release s u m hwf hok
        have hQ2 := Q_release s u m hwf hok
        have hs2 : (s.release u m).2 = s2 := by rw [hr]
        rw [hs2] at hwf2 hQ2
        obtain ⟨hwf', hQ⟩ := ih s2 log h hwf2
        exact ⟨hwf', hQ.trans hQ2⟩

/-! ### Drain loop on a strictly ascending queue: membership view -/

theorem drainAsc_mem_spec (lasc : List Nat) (low : Nat)
    (hasc : List.Pairwise (· < ·) lasc) (hlow : ∀ x ∈ lasc, low ≤ x) :
    (∀ j, low ≤ j → j < (drainAsc low lasc).1 → j ∈ lasc) ∧
    ((drainAsc low lasc).1 ∉ lasc) ∧
    (∀ x, x ∈ (drainAsc low lasc).2 ↔ x ∈ lasc ∧ (drainAsc low lasc).1 < x) := by
  induction lasc generalizing low with
  | nil =>
    refine ⟨fun j h1 h2 => ?_, by simp, fun x => by simp [drainAsc]⟩
    unfold drainAsc at h2
    omega
  | cons a rest ih =>
    rw [List.pairwise_cons] at hasc
    by_cases ha : a = low
    · subst ha
      have hrest : ∀ x ∈ rest, a + 1 ≤ x := fun x hx => hasc.1 x hx
      obtain ⟨ih1, ih2, ih3⟩ := ih (a + 1) hasc.2 hrest
      have hge := drainAsc_ge rest (a + 1)
      have hstep : drainAsc a (a :: rest) = drainAsc (a + 1) rest := by
        show (if a = a then drainAsc (a + 1) rest else (a, a :: rest)) = _
        rw [if_pos rfl]
      rw [hstep]
      refine ⟨?_, ?_, ?_⟩
      · intro j h1 h2
        by_cases hj : j = a
        · rw [hj]
          exact List.mem_cons_self _ _
        · exact List.mem_cons_of_mem _ (ih1 j (by omega) h2)
      · intro hmem
        rcases List.mem_cons.mp hmem with hh | hh
        · omega
        · exact ih2 hh
      · intro x
        rw [ih3 x]
        constructor
        · intro ⟨h1, h2⟩
          exact ⟨List.mem_cons_of_mem _ h1, h2⟩
        · intro ⟨h1, h2⟩
          rcases List.mem_cons.mp h1 with hh | hh
          · omega
          · exact ⟨hh, h2⟩
    · have hstep : drainAsc low (a :: rest) = (low, a :: rest) := by
        show (if a = low then drainAsc (low + 1) rest else (low, a :: rest)) = _
        rw [if_neg ha]
      rw [hstep]
      have hlowa : low < a := by
        have := hlow a (List.mem_cons_self _ _)
        omega
      refine ⟨fun j h1 h2 => by omega, ?_, ?_⟩
      · intro hmem
        rcases List.mem_cons.mp hmem with hh | hh
        · omega
        · have := hasc.1 low hh
          omega
      · intro x
        constructor
        · intro h1
          rcases List.mem_cons.mp h1 with hh | hh
          · exact ⟨h1, by omega⟩
          · have := hasc.1 x hh
            exact ⟨h1, by omega⟩
        · exact fun h1 => h1.1

theorem drainAsc_sublist (l : List Nat) (low : Nat) :
    (drainAsc low l).2.Sublist l := by
  induction l generalizing low with
  | nil => exact List.Sublist.refl _
  | cons x rest ih =>
    by_cases hx : x = low
    · have hstep : drainAsc low (x :: rest) = drainAsc (low + 1) rest := by
        show (if x = low then drainAsc (low + 1) rest else (low, x :: rest)) = _
        rw [if_pos hx]
      rw [hstep]
      exact List.Sublist.cons x (ih (low + 1))
    · have hstep : drainAsc low (x :: rest) = (low, x :: rest) := by
        show (if x = low then drainAsc (low + 1) rest else (low, x :: rest)) = _
        rw [if_neg hx]
      rw [hstep]

theorem relsOf_nil (t : Nat) : relsOf t [] = [] := rfl

theorem relsOf_acq (t u : Nat) (rest : List GateOp) :
    relsOf t (.acq u :: rest) = relsOf t rest := by
  unfold relsOf
  rw [List.filterMap_cons]

theorem relsOf_rel (t u m : Nat) (rest : List GateOp) :
    relsOf t (.rel u m :: rest)
      = (if u = t then [m] else []) ++ relsOf t rest := by
  by_cases hu : u = t <;> simp [relsOf, List.filterMap_cons, hu]

theorem relPairs_acq (u : Nat) (rest : List GateOp) :
    relPairs (.acq u :: rest) = relPairs rest := by
  unfold relPairs
  rw [List.filterMap_cons]

theorem relPairs_rel (u m : Nat) (rest : List GateOp) :
    relPairs (.rel u m :: rest) = (u, m) :: relPairs rest := by
  unfold relPairs
  rw [List.filterMap_cons]

theorem relsOf_eq_filter_relPairs (t : Nat) (ops : List GateOp) :
    relsOf t ops
      = ((relPairs ops).filter (fun p => p.1 = t)).map Prod.snd := by
  induction ops with
  | nil => rfl
  | cons op rest ih =>
    cases op with
    | acq u => rw [relsOf_acq, relPairs_acq, ih]
    | rel u m =>
      rw [relsOf_rel, relPairs_rel, List.filter_cons]
      by_cases hu : u = t
      · rw [if_pos hu, if_pos (by simp [hu]), List.map_cons, ih]
        rfl
      · rw [if_neg hu, if_neg (by simp [hu])]
        rw [ih]
        rfl

theorem relInv_acquire (s : Sem) (u : Nat) (hwf : wfSem s) (hc : s.count ≠ 0)
    (R : Nat → List Nat) (hinv : relInv s R) : relInv (s.acquire u).2 R := by
  obtain ⟨hnd, hval, hsort, habs⟩ := hwf
  have hacq := Sem.acquire_ok s u hc
  intro t
  by_cases hut : t = u
  · subst hut
    cases hl : assocLookup s.tagSequences t with
    | some w =>
      have hw : 1 ≤ w := hval _ (assocLookup_mem _ _ _ hl)
      have hnx : nextOf s t = w := by
        unfold nextOf
        rw [hl]
        rfl
      have hnz : ¬ nextOf s t = 0 := by omega
      have hseq' : assocLookup (s.acquire t).2.tagSequences t
          = some (nextOf s t + 1) := by
        rw [hacq]
        exact assocLookup_assocSet_self _ _ _
      have hlow' : lowOf (s.acquire t).2 t = lowOf s t := by
        rw [hacq]
        unfold lowOf
        dsimp only
        rw [if_neg hnz]
      have hpend' : pendingOf (s.acquire t).2 t = pendingOf s t := by
        rw [hacq]
        rfl
      obtain ⟨-, hsome⟩ := hinv t
      have hprev := hsome (by rw [hl]; exact fun hh => by cases hh)
      constructor
      · intro hcontra
        rw [hseq'] at hcontra
        cases hcontra
      · intro _
        rw [← hlow', ← hpend'] at hprev
        exact hprev
    | none =>
      have h0 : nextOf s t = 0 := by
        unfold nextOf
        rw [hl]
        rfl
      have hseq' : assocLookup (s.acquire t).2.tagSequences t
          = some (nextOf s t + 1) := by
        rw [hacq]
        exact assocLookup_assocSet_self _ _ _
      have hlow' : lowOf (s.acquire t).2 t = 0 := by
        rw [hacq]
        unfold lowOf
        dsimp only
        rw [h0]
        simp [assocLookup_assocSet_self]
      obtain ⟨hpd0, -⟩ := habs t hl
      have hpend' : pendingOf (s.acquire t).2 t = [] := by
        rw [hacq]
        exact hpd0
      obtain ⟨hnone, -⟩ := hinv t
      have hRt : R t = [] := hnone hl
      constructor
      · intro hcontra
        rw [hseq'] at hcontra
        cases hcontra
      · intro _
        rw [hlow', hpend', hRt]
        refine ⟨fun k hk => absurd hk (by omega), by simp, List.Pairwise.nil, ?_⟩
        intro x
        simp
  · have hseq' : assocLookup (s.acquire u).2.tagSequences t
        = assocLookup s.tagSequences t := by
      rw [hacq]
      exact assocLookup_assocSet_ne _ _ _ _ fun he => hut he.symm
    have hlow' : lowOf (s.acquire u).2 t = lowOf s t := by
      rw [hacq]
      unfold lowOf
      dsimp only
      split
      · rw [assocLookup_assocSet_ne _ _ _ _ fun he => hut he.symm]
      · rfl
    have hpend' : pendingOf (s.acquire u).2 t = pendingOf s t := by
      rw [hacq]
      rfl
    obtain ⟨hnone, hsome⟩ := hinv t
    constructor
    · intro hx
      rw [hseq'] at hx
      exact hnone hx
    · intro hx
      rw [hseq'] at hx
      have hp := hsome hx
      rw [← hlow', ← hpend'] at hp
      exact hp

theorem relInv_release (s : Sem) (u m : Nat)
    (hok : (s.release u m).1 = .ok ())
    (R : Nat → List Nat) (hinv : relInv s R) (hm : m ∉ R u) :
    relInv (s.release u m).2 (fun t => if t = u then R t ++ [m] else R t) := by
  cases hl : assocLookup s.tagSequences u with
  | none =>
    rw [Sem.release_unknown s u m hl] at hok
    cases hok
  | some mx =>
    obtain ⟨-, hsomeu⟩ := hinv u
    obtain ⟨h1, h2, h3, h4⟩ := hsomeu (by rw [hl]; exact fun hh => by cases hh)
    by_cases hmin : lowOf s u = m
    · subst hmin
      obtain ⟨hok2, hcnt, hseq, hlowu, hlowne, hpendu, hpendne⟩ :=
        Sem.release_min_components s u mx hl
      have hasc : List.Pairwise (· < ·) (pendingOf s u).reverse := by
        rw [List.pairwise_reverse]
        exact h3
      have hlowmem : ∀ x ∈ (pendingOf s u).reverse, lowOf s u + 1 ≤ x := by
        intro x hx
        rw [List.mem_reverse] at hx
        have := (h4 x).mp hx
        omega
      obtain ⟨hd1, hd2, hd3⟩ :=
        drainAsc_mem_spec (pendingOf s u).reverse (lowOf s u + 1) hasc hlowmem
      have hge := drainAsc_ge (pendingOf s u).reverse (lowOf s u + 1)
      have hnl : lowOf (s.release u (lowOf s u)).2 u
          = (drainAsc (lowOf s u + 1) (pendingOf s u).reverse).1 := by
        show (assocLookup _ u).getD 0 = _
        rw [hlowu]
        rfl
      intro t
      dsimp only
      by_cases hut : t = u
      · subst hut
        rw [if_pos rfl]
        constructor
        · intro hx
          rw [hseq, hl] at hx
          cases hx
        · intro _
          rw [hnl, hpendu]
          refine ⟨?_, ?_, ?_, ?_⟩
          · intro j hj
            by_cases hjlow : j < lowOf s t
            · exact List.mem_append_left _ (h1 j hjlow)
            by_cases hjeq : j = lowOf s t
            · exact List.mem_append_right _
                (by rw [hjeq]; exact List.mem_singleton.mpr rfl)
            · have hj1 : lowOf s t + 1 ≤ j := by omega
              have hjmem := hd1 j hj1 hj
              rw [List.mem_reverse] at hjmem
              exact List.mem_append_left _ ((h4 j).mp hjmem).1
          · intro hmem
            rcases List.mem_append.mp hmem with hh | hh
            · have hpm : (drainAsc (lowOf s t + 1) (pendingOf s t).reverse).1
                  ∈ pendingOf s t := (h4 _).mpr ⟨hh, by omega⟩
              rw [← List.mem_reverse] at hpm
              exact hd2 hpm
            · rw [List.mem_singleton] at hh
              omega
          · exact List.pairwise_reverse.mpr
              (List.Pairwise.sublist (drainAsc_sublist _ _) hasc)
          · intro x
            rw [List.mem_reverse, hd3 x]
            constructor
            · intro hxx
              obtain ⟨hxp, hxgt⟩ := hxx
              rw [List.mem_reverse] at hxp
              have := (h4 x).mp hxp
              exact ⟨List.mem_append_left _ this.1, hxgt⟩
            · intro hxx
              obtain ⟨hxR, hxgt⟩ := hxx
              rcases List.mem_append.mp hxR with hh | hh
              · have hxlow : lowOf s t < x := by omega
                refine ⟨?_, hxgt⟩
                rw [List.mem_reverse]
                exact (h4 x).mpr ⟨hh, hxlow⟩
              · rw [List.mem_singleton] at hh
                omega
      · rw [if_neg hut]
        constructor
        · intro hx
          rw [hseq] at hx
          exact (hinv t).1 hx
        · intro hx
          rw [hseq] at hx
          have hp := (hinv t).2 hx
          have hlw : lowOf (s.release u (lowOf s u)).2 t = lowOf s t := by
            show (assocLookup _ t).getD 0 = _
            rw [hlowne t hut]
            rfl
          rw [← hlw, ← hpendne t hut] at hp
          exact hp
    · by_cases hbet : lowOf s u < m ∧ m < mx
      · have heq := Sem.release_pending_eq s u m mx hl hmin hbet
        have hseq2 : (s.release u m).2.tagSequences = s.tagSequences := by
          rw [heq]
        have hlow2 : ∀ t, lowOf (s.release u m).2 t = lowOf s t := by
          intro t
          rw [heq]
          rfl
        have hpend2u : pendingOf (s.release u m).2 u
            = sortDesc (pendingOf s u ++ [m]) := by
          rw [heq]
          show (assocLookup (assocSet _ u _) u).getD [] = _
          rw [assocLookup_assocSet_self]
          rfl
        have hpend2ne : ∀ t, t ≠ u → pendingOf (s.release u m).2 t = pendingOf s t := by
          intro t ht
          rw [heq]
          show (assocLookup (assocSet _ u _) t).getD [] = _
          rw [assocLookup_assocSet_ne _ _ _ _ fun he => ht he.symm]
          rfl
        have hperm := sortDesc_perm (pendingOf s u ++ [m])
        have hmemx : ∀ x, x ∈ sortDesc (pendingOf s u ++ [m])
            ↔ x ∈ pendingOf s u ∨ x = m := by
          intro x
          rw [hperm.mem_iff, List.mem_append, List.mem_singleton]
        have hmp : m ∉ pendingOf s u := fun hc => hm ((h4 m).mp hc).1
        intro t
        dsimp only
        by_cases hut : t = u
        · subst hut
          rw [if_pos rfl]
          constructor
          · intro hx
            rw [hseq2, hl] at hx
            cases hx
          · intro _
            rw [hlow2 t, hpend2u]
            refine ⟨?_, ?_, ?_, ?_⟩
            · intro j hj
              exact List.mem_append_left _ (h1 j hj)
            · intro hmem2
              rcases List.mem_append.mp hmem2 with hh | hh
              · exact h2 hh
              · rw [List.mem_singleton] at hh
                exact hmin hh
            · have hwk := sortDesc_sorted (pendingOf s t ++ [m])
              have hnodup : (sortDesc (pendingOf s t ++ [m])).Nodup := by
                rw [hperm.nodup_iff, List.nodup_append]
                refine ⟨h3.imp fun hab => ne_of_gt hab, List.nodup_singleton m, ?_⟩
                intro a ha hb
                rw [List.mem_singleton] at hb
                subst hb
                exact hmp ha
              exact (List.Pairwise.and hwk hnodup).imp
                fun hab => lt_of_le_of_ne hab.1 fun he => hab.2 he.symm
            · intro x
              rw [hmemx x]
              constructor
              · intro hh
                rcases hh with hh | hh
                · have := (h4 x).mp hh
                  exact ⟨List.mem_append_left _ this.1, this.2⟩
                · subst hh
                  exact ⟨List.mem_append_right _ (List.mem_singleton.mpr rfl), hbet.1⟩
              · intro hxx
                obtain ⟨hxR, hxgt⟩ := hxx
                rcases List.mem_append.mp hxR with hh | hh
                · exact Or.inl ((h4 x).mpr ⟨hh, hxgt⟩)
                · rw [List.mem_singleton] at hh
                  exact Or.inr hh
        · rw [if_neg hut]
          constructor
          · intro hx
            rw [hseq2] at hx
            exact (hinv t).1 hx
          · intro hx
            rw [hseq2] at hx
            have hp := (hinv t).2 hx
            rw [← hlow2 t, ← hpend2ne t hut] at hp
            exact hp
      · rw [Sem.release_invalid s u m mx hl hmin hbet] at hok
        cases hok

/-- History invariant along a successful trace: starting from a state whose
invariant ties it to the already-released numbers `R`, the final state is tied
to `R` extended with every release performed by the trace. -/
theorem runGate_relInv (ops : List GateOp) (s s' : Sem) (log : List (Nat × Nat))
    (R : Nat → List Nat) (h : runGate s ops = some (s', log)) (hwf : wfSem s)
    (hinv : relInv s R) (hnd : ∀ t, (R t ++ relsOf t ops).Nodup) :
    relInv s' (fun t => R t ++ relsOf t ops) := by
  induction ops generalizing s log R with
  | nil =>
    unfold runGate at h
    simp only [Option.some.injEq, Prod.mk.injEq] at h
    obtain ⟨hs, -⟩ := h
    subst hs
    intro t
    dsimp only
    rw [relsOf_nil, List.append_nil]
    exact hinv t
  | cons op rest ih =>
    cases op with
    | acq u =>
      unfold runGate at h
      by_cases hc : s.count = 0
      · rw [Sem.acquire_error s u hc] at h
        simp at h
      · have hacq := Sem.acquire_ok s u hc
        rw [show s.acquire u = (.ok (nextOf s u), (s.acquire u).2) from by rw [hacq]]
          at h
        dsimp only at h
        cases hrun : runGate (s.acquire u).2 rest with
        | none =>
          rw [hrun] at h
          simp at h
        | some pr =>
          rw [hrun] at h
          simp only [Option.map_some', Option.some.injEq, Prod.mk.injEq] at h
          obtain ⟨hs, -⟩ := h
          subst hs
          have hres := ih (s.acquire u).2 pr.2 R hrun (wf_acquire s u hwf hc)
            (relInv_acquire s u hwf hc R hinv)
            (by intro t; have := hnd t; rw [relsOf_acq] at this; exact this)
          intro t
          dsimp only
          rw [relsOf_acq]
          have hh := hres t
          dsimp only at hh
          exact hh
    | rel u m =>
      unfold runGate at h
      rcases hr : s.release u m with ⟨r, s2⟩
      rw [hr] at h
      cases r with
      | error e => simp at h
      | ok v =>
        dsimp only at h
        have hok : (s.release u m).1 = .ok () := by rw [hr]
        have hs2 : (s.release u m).2 = s2 := by rw [hr]
        have hmnotin : m ∉ R u := by
          have hu := hnd u
          rw [relsOf_rel, if_pos rfl, List.singleton_append] at hu
          exact fun hRm =>
            List.disjoint_of_nodup_append hu hRm (List.mem_cons_self _ _)
        have hinv2 : relInv s2 (fun t => if t = u then R t ++ [m] else R t) := by
          have := relInv_release s u m hok R hinv hmnotin
          rw [hs2] at this
          exact this
        have hwf2 : wfSem s2 := by
          have := wf_release s u m hwf hok
          rw [hs2] at this
          exact this
        have hnd2 : ∀ t, ((if t = u then R t ++ [m] else R t) ++ relsOf t rest).Nodup := by
          intro t
          by_cases ht : t = u
          · subst ht
            rw [if_pos rfl]
            have hu := hnd t
            rw [relsOf_rel, if_pos rfl, ← List.append_assoc] at hu
            exact hu
          · rw [if_neg ht]
            have hu := hnd t
            rw [relsOf_rel, if_neg fun he => ht he.symm, List.nil_append] at hu
            exact hu
        have hres := ih s2 log _ h hwf2 hinv2 hnd2
        intro t
        have hrt := hres t
        dsimp only at hrt ⊢
        by_cases ht : t = u
        · subst ht
          rw [if_pos rfl] at hrt
          rw [relsOf_rel, if_pos rfl, ← List.append_assoc]
          exact hrt
        · rw [if_neg ht] at hrt
          rw [relsOf_rel, if_neg fun he => ht he.symm, List.nil_append]
          exact hrt

theorem assocLookup_of_mem_nodup {α : Type} (l : List (Nat × α)) (t : Nat) (v : α)
    (hnd : (l.map Prod.fst).Nodup) (hmem : (t, v) ∈ l) :
    assocLookup l t = some v := by
  induction l with
  | nil => cases hmem
  | cons q rest ih =>
    obtain ⟨k, x⟩ := q
    simp only [List.map_cons, List.nodup_cons] at hnd
    rcases List.mem_cons.mp hmem with hh | hh
    · have he1 : t = k := congrArg Prod.fst hh
      have he2 : v = x := congrArg Prod.snd hh
      rw [assocLookup, if_pos he1.symm, he2]
    · by_cases hk : k = t
      · exfalso
        subst hk
        exact hnd.1 (List.mem_map.mpr ⟨(k, v), hh, rfl⟩)
      · rw [assocLookup, if_neg hk]
        exact ih hnd.2 hh

theorem outstandingAux_zero (lows l : List (Nat × Nat))
    (h : ∀ p ∈ l, ((assocLookup lows p.1).getD 0 : Nat) = p.2) :
    outstandingAux lows l = 0 := by
  induction l with
  | nil => rfl
  | cons q rest ih =>
    unfold outstandingAux
    simp only [List.foldr_cons]
    have h1 := h q (List.mem_cons_self _ _)
    have h2 := ih fun p hp => h p (List.mem_cons_of_mem _ hp)
    unfold outstandingAux at h2
    rw [h2, h1]
    ring

/-- Claim C3 theorem: along any successful trace from a fresh capacity-`C`
gate, the sum over all tags of `nextSequence - lowestUnreleased` equals `C`
minus the current count; and if the trace pairs every acquired sequence
number with exactly one release (the multiset of releases equals the multiset
of issued `(tag, sequenceNumber)` pairs), then at the end every tag is fully
drained (`lowest = next`, empty pending queue) and `currentCount()` is back to
`C`. -/
theorem claim_C3 (C : Nat) (ops : List GateOp) (s : Sem) (log : List (Nat × Nat))
    (h : runGate (initSem C) ops = some (s, log)) :
    (outstanding s = (C : Int) - (s.count : Int)) ∧
    ((relPairs ops).Perm log →
      (∀ t, lowOf s t = nextOf s t ∧ pendingOf s t = []) ∧
      s.currentCount = C) := by
  obtain ⟨hwf, hQ⟩ := runGate_QWf ops (initSem C) s log h (wf_initSem C)
  have hQ' : outstanding s = (C : Int) - (s.count : Int) := by
    have h0 : outstanding (initSem C) = 0 := rfl
    have hcc : (initSem C).count = C := rfl
    rw [h0, hcc] at hQ
    omega
  refine ⟨hQ', ?_⟩
  intro hperm
  have hrels : ∀ t, (relsOf t ops).Perm (List.range (nextOf s t)) := by
    intro t
    rw [relsOf_eq_filter_relPairs]
    have hpf := (List.Perm.filter (fun p => decide (p.1 = t)) hperm).map Prod.snd
    obtain ⟨-, hrange⟩ := runGate_nextOf ops (initSem C) s log h t
    have h0 : nextOf (initSem C) t = 0 := rfl
    rw [h0, Nat.sub_zero, ← List.range_eq_range'] at hrange
    exact hpf.trans (by rw [hrange])
  have hnd : ∀ t, (([] : List Nat) ++ relsOf t ops).Nodup := by
    intro t
    rw [List.nil_append]
    exact ((hrels t).nodup_iff).mpr (List.nodup_range _)
  have hinv := runGate_relInv ops (initSem C) s log (fun _ => []) h (wf_initSem C)
    (by intro t; exact ⟨fun _ => rfl, fun hx => absurd rfl hx⟩) hnd
  have hmem : ∀ t x, x ∈ relsOf t ops ↔ x < nextOf s t := by
    intro t x
    rw [(hrels t).mem_iff, List.mem_range]
  have hdrained : ∀ t, lowOf s t = nextOf s t ∧ pendingOf s t = [] := by
    intro t
    have ht := hinv t
    dsimp only at ht
    rw [List.nil_append] at ht
    cases hseq : assocLookup s.tagSequences t with
    | none =>
      obtain ⟨hp0, hlw⟩ := hwf.2.2.2 t hseq
      constructor
      · show (assocLookup s.lowestSequence t).getD 0
          = (assocLookup s.tagSequences t).getD 0
        rw [hseq, hlw]
      · exact hp0
    | some mx =>
      obtain ⟨g1, g2, g3, g4⟩ := ht.2 (by rw [hseq]; exact fun hh => by cases hh)
      have hle : lowOf s t = nextOf s t := by
        by_contra hne
        rcases Nat.lt_or_ge (lowOf s t) (nextOf s t) with hlt | hge
        · exact g2 ((hmem t _).mpr hlt)
        · have hgt : nextOf s t < lowOf s t := by omega
          have hin := g1 (nextOf s t) hgt
          rw [hmem t] at hin
          omega
      refine ⟨hle, ?_⟩
      rw [List.eq_nil_iff_forall_not_mem]
      intro x hx
      obtain ⟨hxr, hxlow⟩ := (g4 x).mp hx
      rw [hmem t] at hxr
      omega
  have hzero : outstanding s = 0 := by
    apply outstandingAux_zero
    intro p hp
    have hlk := assocLookup_of_mem_nodup s.tagSequences p.1 p.2 hwf.1 hp
    have hnx : nextOf s p.1 = p.2 := by
      unfold nextOf
      rw [hlk]
      rfl
    have hlow := (hdrained p.1).1
    show (assocLookup s.lowestSequence p.1).getD 0 = p.2
    rw [← hnx, ← hlow]
    rfl
  refine ⟨hdrained, ?_⟩
  show s.count = C
  rw [hzero] at hQ'
  omega

/-- Claim C3 witness: a fully paired out-of-order trace on a capacity-3 gate
keeps the outstanding sum equal to `C - count` and returns the count to 3. -/
theorem claim_C3_witness :
    outstanding semC3 = (3 : Int) - (semC3.count : Int) ∧
    semC3.currentCount = 3 := by
  have h := claim_C3 3 opsC3 semC3 logC7 (by decide)
  exact ⟨h.1, (h.2 (by decide)).2⟩

/-! ### Minimum of a descending-sorted queue -/

theorem getLast?_le_of_sorted_desc (l : List Nat)
    (hs : List.Sorted (fun a b => b ≤ a) l) :
    ∀ y, l.getLast? = some y → ∀ b ∈ l, y ≤ b := by
  induction l with
  | nil =>
    intro y hy
    cases hy
  | cons a rest ih =>
    intro y hy b hb
    cases rest with
    | nil =>
      simp only [List.getLast?_singleton, Option.some.injEq] at hy
      subst hy
      rw [List.mem_singleton] at hb
      subst hb
      exact le_refl _
    | cons c rs =>
      rw [List.getLast?_cons_cons] at hy
      rcases List.mem_cons.mp hb with hb1 | hb1
      · subst hb1
        have hym : y ∈ c :: rs := by
          have hg := List.getLast?_eq_getLast (c :: rs) (by simp)
          rw [hg] at hy
          rw [← Option.some.inj hy]
          exact List.getLast_mem _
        exact List.rel_of_sorted_cons hs y hym
      · exact ih hs.of_cons y hy b hb1

theorem sorted_desc_min?_eq_getLast? (l : List Nat)
    (hs : List.Sorted (fun a b => b ≤ a) l) : l.min? = l.getLast? := by
  cases hl : l.getLast? with
  | none =>
    rw [List.getLast?_eq_none_iff] at hl
    subst hl
    rfl
  | some y =>
    rw [List.min?_eq_some_iff']
    refine ⟨?_, getLast?_le_of_sorted_desc l hs y hl⟩
    cases l with
    | nil => cases hl
    | cons a rest =>
      have hg := List.getLast?_eq_getLast (a :: rest) (by simp)
      rw [hg] at hl
      rw [← Option.some.inj hl]
      exact List.getLast_mem _

/-- Claim C2 theorem: on any reachable state, releasing a non-minimum
outstanding number only queues it (count, lowest unchanged; the number is
inserted into the descending pending queue), while releasing the current
minimum frees one unit, advances `lowest` by one, and then cascades: for some
`k`, the loop pops the queue's minimum exactly while it equals the advanced
`lowest`, each pop freeing one more unit and advancing `lowest`, stopping as
soon as the queue's minimum differs (or the queue is empty). -/
theorem claim_C2 (C : Nat) (ops : List GateOp) (s : Sem) (log : List (Nat × Nat))
    (t n mx : Nat) (h : runGate (initSem C) ops = some (s, log))
    (hmx : assocLookup s.tagSequences t = some mx) :
    ((lowOf s t < n ∧ n < mx) →
      (s.release t n).1 = .ok () ∧
      (s.release t n).2.currentCount = s.currentCount ∧
      lowOf (s.release t n).2 t = lowOf s t ∧
      pendingOf (s.release t n).2 t = sortDesc (pendingOf s t ++ [n])) ∧
    (n = lowOf s t →
      ∃ k,
        (s.release t n).1 = .ok () ∧
        (s.release t n).2.currentCount = s.currentCount + 1 + k ∧
        lowOf (s.release t n).2 t = lowOf s t + 1 + k ∧
        pendingOf (s.release t n).2 t
          = (pendingOf s t).take ((pendingOf s t).length - k) ∧
        (∀ j, j < k →
          ((pendingOf s t).take ((pendingOf s t).length - j)).min?
            = some (lowOf s t + 1 + j)) ∧
        ((pendingOf s t).take ((pendingOf s t).length - k)).min?
          ≠ some (lowOf s t + 1 + k)) := by
  obtain ⟨hwf, -⟩ := runGate_QWf ops (initSem C) s log h (wf_initSem C)
  have hsort := hwf.2.2.1 t
  constructor
  · intro hbet
    have hne : ¬ lowOf s t = n := by omega
    have heq := Sem.release_pending_eq s t n mx hmx hne hbet
    refine ⟨by rw [heq], by rw [heq]; rfl, by rw [heq]; rfl, ?_⟩
    rw [heq]
    show (assocLookup (assocSet _ t _) t).getD [] = _
    rw [assocLookup_assocSet_self]
    rfl
  · intro hn
    subst hn
    obtain ⟨k, hklen, hok, hcnt, hlow, hpend, hidx, hstop⟩ :=
      Sem.release_min_drained s t mx hmx
    refine ⟨k, hok, hcnt, hlow, hpend, ?_, ?_⟩
    · intro j hj
      have hrev := hidx j hj
      have hjlen : j < (pendingOf s t).length := by
        by_contra hge
        rw [List.getElem?_eq_none (by rw [List.length_reverse]; omega)] at hrev
        cases hrev
      have htakes : List.Sorted (fun a b => b ≤ a)
          ((pendingOf s t).take ((pendingOf s t).length - j)) :=
        List.Pairwise.sublist (List.take_sublist _ _) hsort
      rw [sorted_desc_min?_eq_getLast? _ htakes, List.getLast?_eq_getElem?,
        List.length_take]
      have hminlen : min ((pendingOf s t).length - j) (pendingOf s t).length
          = (pendingOf s t).length - j := by omega
      rw [hminlen, List.getElem?_take, if_pos (by omega)]
      rw [List.getElem?_reverse hjlen] at hrev
      rw [show (pendingOf s t).length - j - 1
        = (pendingOf s t).length - 1 - j from by omega]
      exact hrev
    · have htakes : List.Sorted (fun a b => b ≤ a)
          ((pendingOf s t).take ((pendingOf s t).length - k)) :=
        List.Pairwise.sublist (List.take_sublist _ _) hsort
      rw [sorted_desc_min?_eq_getLast? _ htakes, List.getLast?_eq_getElem?,
        List.length_take]
      by_cases hkl : k < (pendingOf s t).length
      · rcases hstop with hh | hh
        · exfalso
          have hlen := congrArg List.length hh
          rw [List.length_drop, List.length_reverse] at hlen
          simp only [List.length_nil] at hlen
          omega
        · have hminlen : min ((pendingOf s t).length - k) (pendingOf s t).length
              = (pendingOf s t).length - k := by omega
          rw [hminlen, List.getElem?_take, if_pos (by omega)]
          rw [List.getElem?_reverse hkl] at hh
          rw [show (pendingOf s t).length - k - 1
            = (pendingOf s t).length - 1 - k from by omega]
          exact hh
      · have hk0 : (pendingOf s t).length - k = 0 := by omega
        rw [hk0]
        simp

/-- Claim C2 witness: on the reachable state with pending queue `[2, 1]` and
`lowest = 0` for tag 7, releasing the minimum cascades through both queued
numbers: three units freed in total, `lowest` ends at 3, queue empty. -/
theorem claim_C2_witness :
    (semPending.release 7 0).1 = .ok () ∧
    (semPending.release 7 0).2.currentCount = semPending.currentCount + 3 ∧
    lowOf (semPending.release 7 0).2 7 = 3 ∧
    pendingOf (semPending.release 7 0).2 7 = [] := by
  have h := (claim_C2 4 [.acq 7, .acq 7, .acq 7, .acq 7, .rel 7 2, .rel 7 1]
    semPending [(7, 0), (7, 1), (7, 2), (7, 3)] 7 0 4 (by decide) (by decide)).2 rfl
  obtain ⟨k, h1, h2, h3, h4, h5, h6⟩ := h
  have hc : lowOf (semPending.release 7 0).2 7 = 3 := by decide
  have hc0 : lowOf semPending 7 = 0 := by decide
  have hk : k = 2 := by
    rw [hc, hc0] at h3
    omega
  refine ⟨h1, ?_, hc, ?_⟩
  · rw [h2, hk]
  · rw [h4, hk]
    decide

end S3T
